import Mathlib

/-!
A DPLL SAT solver (`01-pure_literals_fixed/sat.cpp`)

A shallow embedding of the class `CNF` of `sat.cpp` and proofs about it.

Modelling conventions

* `int` is `Int`. The source negates literals and takes `abs` of them; the embedding is
  exact for literals strictly between `-2^31` and `2^31`.
* `vector<int>` is `List Int`, `push_back` is append at the end.
* `set<int>` is a duplicate-free ascending `List Int`; iterating a set walks the list.
* `parse` is embedded from the header line on, over the integers of the clause lines.
  Its clause loop only returns on lines that hold the sentinel `0`; `well_formed` names
  these inputs and the statements about the stored clauses assume it.
* `while (true)` loops and the recursion of `solve_helper` are driven by a fuel argument;
  running out of fuel is a separate result (`timeout`). `solve_helper_spec` proves that
  the search never exhausts the fuel handed out by `dpll`, `solve_helper_fuel` that more
  fuel gives the same result, and `completion_spec` that the completion loop does not
  exhaust its fuel on an assignment of nonzero literals.
* `branch_states` lists the formulas on which `select_branching_literal` is evaluated by
  a call of `solve_helper` and the calls below it; it follows the control flow of
  `solve_helper` and serves to state what holds at every branching point.
* Reading `clauses[0][0]` out of range is undefined behaviour in the source; the
  embedding reports it as the result `fault`.
-/

namespace CNF

/-- The capacity constant `#define MAXVARS 1500`. -/
def MAXVARS : Int := 1500

/-! ## `set<int>` -/

/-- Membership test `s.find(x) != s.end()`. -/
def set_find (x : Int) (s : List Int) : Bool := decide (x ∈ s)

/-- Insertion `s.insert(x)` into an ascending duplicate-free list. -/
def set_insert (x : Int) (s : List Int) : List Int :=
  if x ∈ s then s else List.orderedInsert (fun a b => a ≤ b) x s

/-- Removal `s.erase(x)`. -/
def set_erase (x : Int) (s : List Int) : List Int := s.filter (fun y => y ≠ x)

end CNF

/-- The data members of `class CNF`: `nvars`, the flag `empty` and `clauses`. -/
structure CNF where
  nvars : Int
  empty : Bool
  clauses : List (List Int)
deriving DecidableEq

namespace CNF

/-! ## Parsing (lines 46-75) -/

/-- The literal-reading loop of `parse` on the integers of one line.
`used` is `used_literals`, `clause` the clause built so far, `always_true` the flag
`clause_always_true`. The loop of the source returns when it reads the sentinel `0`, the
second equation. On a line that holds no `0` it does not return: the extraction that
fails at the end of the line leaves `literal` as it was, so the loop repeats on the last
literal for ever, and on a line with no integer at all `literal` is read uninitialised.
The first equation only makes the function total; it is not reached on a line that holds
a `0`, and what is stated of the clauses that `parse` stores assumes `well_formed`. -/
def read_literals : List Int → List Int → List Int → Bool → List Int × Bool
  | [], _, clause, always_true => (clause, always_true)
  | literal :: rest, used, clause, always_true =>
    if literal = 0 then (clause, always_true)
    else if set_find literal used then read_literals rest used clause always_true
    else
      read_literals rest (set_insert literal used) (clause ++ [literal])
        (if set_find (-literal) used then true else always_true)

/-- One round of the `for` loop of `parse`: the clause read from a line and its
`clause_always_true` flag. -/
def read_clause (line : List Int) : List Int × Bool :=
  read_literals line [] [] false

/-- The `for (i < nclauses)` loop of `parse` over the lines that follow the header. -/
def read_clauses : List (List Int) → List (List Int) → List (List Int)
  | [], clauses => clauses
  | line :: rest, clauses =>
    let r := read_clause line
    if !r.2 then read_clauses rest (clauses ++ [r.1]) else read_clauses rest clauses

/-- How `parse` ends once the header line is found. -/
inductive ParseResult where
  /-- The call `exit(1)` after printing `too many vars`. -/
  | too_many_vars
  /-- The formula is returned. -/
  | ok (c : CNF)
deriving DecidableEq

/-- The body of `parse` from the header on: `nvars` and `nclauses` are the two numbers of
the `p cnf` line, `lines` the integers of each following line. The capacity check comes
first, as in the source. The clause loop is that of the source when the input is
`well_formed`: the file holds at least `nclauses` lines after the header and each of
the lines read holds a `0`; on other inputs the source does not return a formula (see
`read_literals`) or reads a line that is not there. -/
def parse (nvars nclauses : Int) (lines : List (List Int)) : ParseResult :=
  if nvars > MAXVARS then ParseResult.too_many_vars
  else ParseResult.ok ⟨nvars, false, read_clauses (lines.take nclauses.toNat) []⟩

/-! ## Queries -/

/-- The method `find_unit_clauses`. -/
def find_unit_clauses (c : CNF) : List Int :=
  c.clauses.foldl (fun ret a => match a with
    | [x] => set_insert x ret
    | _ => ret) []

/-- The body of the inner loop of `find_pure_literals`; the state is `(ret, bad_vars)`. -/
def pure_step (st : List Int × List Int) (l : Int) : List Int × List Int :=
  if set_find |l| st.2 then st
  else if set_find l st.1 then st
  else if set_find (-l) st.1 then (set_erase (-l) st.1, set_insert |l| st.2)
  else (set_insert l st.1, st.2)

/-- The method `find_pure_literals`. -/
def find_pure_literals (c : CNF) : List Int :=
  (c.clauses.foldl (fun st cl => cl.foldl pure_step st) ([], [])).1

/-- The method `has_empty_clause`. -/
def has_empty_clause (c : CNF) : Bool := c.empty

/-- The method `is_cnf_empty`. -/
def is_cnf_empty (c : CNF) : Bool := c.clauses.length == 0

/-! ## Propagation -/

/-- The `for (auto& c : clauses)` loop of `propagate_var_single_value`: strips `-v` from
the clauses in turn and stops at the first clause left with no literal. The boolean tells
whether the loop stopped there (and set `empty`). -/
def strip_negation (v : Int) : List (List Int) → List (List Int) × Bool
  | [] => ([], false)
  | c :: cs =>
    let c1 := c.filter (fun l => !(l == -v))
    if c1.length = 0 then (c1 :: cs, true)
    else ((c1 :: (strip_negation v cs).1), (strip_negation v cs).2)

/-- The method `propagate_var_single_value`. -/
def propagate_var_single_value (v : Int) (c : CNF) : CNF :=
  let r := strip_negation v (c.clauses.filter (fun cl => !(decide (v ∈ cl))))
  ⟨c.nvars, c.empty || r.2, r.1⟩

/-- The method `propagate_var_values`, `vs` listed in ascending order. -/
def propagate_var_values : List Int → CNF → CNF
  | [], c => c
  | v :: vs, c =>
    let c1 := propagate_var_single_value v c
    if c1.empty then c1 else propagate_var_values vs c1

/-- The method `select_branching_literal`; `none` when `clauses[0][0]` is out of range. -/
def select_branching_literal (c : CNF) : Option Int :=
  match c.clauses with
  | [] => none
  | cl :: _ => cl.head?

/-! ## Search -/

/-- How one of the two `while (true)` loops of `solve_helper` ends. -/
inductive LoopResult where
  /-- The fuel of the model ran out. -/
  | timeout
  /-- The loop executed `return false`; `acc` is the vector at that point. -/
  | failed (acc : List Int)
  /-- The loop executed `break`. -/
  | broke (c : CNF) (acc : List Int)
deriving DecidableEq

/-- The unit-clause loop of `solve_helper` (lines 136-147). -/
def unit_loop : Nat → CNF → List Int → LoopResult
  | 0, _, _ => LoopResult.timeout
  | fuel + 1, c, acc =>
    let units := find_unit_clauses c
    if units.length = 0 then LoopResult.broke c acc
    else if units.length > 1 ∧ units.any (fun v => set_find (-v) units) then
      LoopResult.failed acc
    else
      let c1 := propagate_var_values units c
      if has_empty_clause c1 then LoopResult.failed (acc ++ units)
      else unit_loop fuel c1 (acc ++ units)

/-- The pure-literal loop of `solve_helper` (lines 150-156). -/
def pure_loop : Nat → CNF → List Int → LoopResult
  | 0, _, _ => LoopResult.timeout
  | fuel + 1, c, acc =>
    let lits := find_pure_literals c
    if lits.length = 0 then LoopResult.broke c acc
    else
      let c1 := propagate_var_values lits c
      if has_empty_clause c1 then LoopResult.failed (acc ++ lits)
      else pure_loop fuel c1 (acc ++ lits)

/-- How a call of `solve_helper` ends. -/
inductive SolveResult where
  /-- The fuel of the model ran out. -/
  | timeout
  /-- An element was read out of range. -/
  | fault
  /-- The call returned `ret`, leaving `*acc` equal to `acc`. -/
  | done (ret : Bool) (acc : List Int)
deriving DecidableEq

/-- The method `solve_helper`; the formula is `*this`, `acc` the vector behind the
pointer argument. -/
def solve_helper : Nat → CNF → List Int → SolveResult
  | 0, _, _ => SolveResult.timeout
  | fuel + 1, c, acc =>
    if has_empty_clause c then SolveResult.done false acc
    else
      match unit_loop (fuel + 1) c acc with
      | LoopResult.timeout => SolveResult.timeout
      | LoopResult.failed acc1 => SolveResult.done false acc1
      | LoopResult.broke c1 acc1 =>
        match pure_loop (fuel + 1) c1 acc1 with
        | LoopResult.timeout => SolveResult.timeout
        | LoopResult.failed acc2 => SolveResult.done false acc2
        | LoopResult.broke c2 acc2 =>
          if is_cnf_empty c2 then SolveResult.done true acc2
          else
            let acclim := acc2.length
            match select_branching_literal c2 with
            | none => SolveResult.fault
            | some v =>
              match solve_helper fuel (propagate_var_single_value v c2) (acc2 ++ [v]) with
              | SolveResult.timeout => SolveResult.timeout
              | SolveResult.fault => SolveResult.fault
              | SolveResult.done true acc3 => SolveResult.done true acc3
              | SolveResult.done false acc3 =>
                solve_helper fuel (propagate_var_single_value (-v) c2)
                  (acc3.take acclim ++ [-v])

/-! ## Completion of the assignment -/

/-- The call `std::sort(..., abs(a) < abs(b))`. Elements of equal magnitude keep their
order here; the source leaves their order open. -/
def sort_abs (acc : List Int) : List Int :=
  acc.insertionSort (fun a b => |a| ≤ |b|)

/-- The inner loop `while (current < abs(acc->at(i)))` run for `n` rounds: the state is
`(current, acc)`. -/
def push_missing : Nat → Int → List Int → Int × List Int
  | 0, current, acc => (current, acc)
  | n + 1, current, acc => push_missing n (current + 1) (acc ++ [current])

/-- The loop `for (i = 0; i < acc->size(); i++)` of `dpll`; `none` when the fuel of the
model ran out. The inner loop runs `abs(acc[i]) - current` times when that is positive. -/
def fill_loop : Nat → Nat → Int → List Int → Option (List Int)
  | 0, _, _, _ => none
  | fuel + 1, i, current, acc =>
    match acc[i]? with
    | none => some acc
    | some x =>
      let r := push_missing (|x| - current).toNat current acc
      fill_loop fuel (i + 1) (r.1 + 1) r.2

/-- What `dpll` hands to `main`. -/
inductive Verdict where
  /-- The fuel of the model ran out. -/
  | timeout
  /-- An element was read out of range. -/
  | fault
  /-- The value `nullptr`: `main` prints `UNSAT`. -/
  | unsat
  /-- The vector of literals that `main` prints after `v`. -/
  | sat (acc : List Int)
deriving DecidableEq

/-- Number of clauses plus number of literal occurrences. -/
def size (c : CNF) : Nat := (c.clauses.map (fun cl => cl.length + 1)).sum

/-- Fuel for the completion loop: one round for each element at the start and one for
each value that can be pushed. -/
def fill_fuel (acc : List Int) : Nat := acc.length + (acc.map Int.natAbs).sum + 1

/-- The method `dpll`. -/
def dpll (c : CNF) : Verdict :=
  match solve_helper (size c + 1) c [] with
  | SolveResult.timeout => Verdict.timeout
  | SolveResult.fault => Verdict.fault
  | SolveResult.done false _ => Verdict.unsat
  | SolveResult.done true acc =>
    let acc1 := sort_abs acc
    match fill_loop (fill_fuel acc1) 0 1 acc1 with
    | none => Verdict.timeout
    | some acc2 => Verdict.sat (sort_abs acc2)

/-- What a run of `main` on a readable file with a header line does. -/
inductive Run where
  /-- The call `exit(1)` inside `parse`. -/
  | exit_too_many_vars
  /-- The solver ran and `main` saw this verdict. -/
  | solved (v : Verdict)
deriving DecidableEq

/-- The function `main` after the header line has been found. -/
def main_run (nvars nclauses : Int) (lines : List (List Int)) : Run :=
  match parse nvars nclauses lines with
  | ParseResult.too_many_vars => Run.exit_too_many_vars
  | ParseResult.ok c => Run.solved (dpll c)

/-! ## Vocabulary of the specification -/

/-- The literals of a clause line: the integers before the first `0`. -/
def literals_of_line (line : List Int) : List Int := line.takeWhile (fun l => l ≠ 0)

/-- The clause lines that `parse` reads are all there and each of them holds the sentinel:
the file has at least `nclauses` lines after the header and every line read lists a `0`.
On these inputs the clause loop of `parse` returns. -/
def well_formed (nclauses : Int) (lines : List (List Int)) : Prop :=
  nclauses.toNat ≤ lines.length ∧ ∀ line ∈ lines.take nclauses.toNat, (0 : Int) ∈ line

instance (nclauses : Int) (lines : List (List Int)) : Decidable (well_formed nclauses lines) := by
  unfold well_formed; infer_instance

/-- A clause line is tautological when it lists a literal together with its negation. -/
def tautological (line : List Int) : Prop :=
  ∃ l ∈ literals_of_line line, -l ∈ literals_of_line line

instance (line : List Int) : Decidable (tautological line) := by
  unfold tautological; infer_instance

/-- A list with every repeated occurrence of an element removed, first occurrences kept
in their order. -/
def first_occurrences : List Int → List Int
  | [] => []
  | x :: xs => x :: (first_occurrences xs).filter (fun y => y ≠ x)

/-- Truth value of the literal `l` under the valuation `τ` of the variables. -/
def lit_true (τ : Nat → Bool) (l : Int) : Bool :=
  if 0 < l then τ l.natAbs else !(τ l.natAbs)

/-- The valuation `τ` makes every clause of `cls` true. -/
def satisfies (τ : Nat → Bool) (cls : List (List Int)) : Prop :=
  ∀ cl ∈ cls, ∃ l ∈ cl, lit_true τ l = true

/-- Some valuation of the variables makes every clause true. -/
def satisfiable (cls : List (List Int)) : Prop := ∃ τ, satisfies τ cls

/-- The literal `l` occurs in some clause of `cls`. -/
def occurs (l : Int) (cls : List (List Int)) : Prop := ∃ cl ∈ cls, l ∈ cl

/-- Every literal of every clause is a nonzero integer. -/
def lits_nonzero (cls : List (List Int)) : Prop := ∀ cl ∈ cls, ∀ l ∈ cl, l ≠ 0

/-- The valuation `τ` changed to make the literal `l` true. -/
def set_true (τ : Nat → Bool) (l : Int) : Nat → Bool :=
  Function.update τ l.natAbs (decide (0 < l))

/-- What the scan of `find_pure_literals` knows after the literals `seen`. -/
structure PureInv (seen : List Int) (st : List Int × List Int) : Prop where
  ret_iff : ∀ x, x ∈ st.1 ↔ x ∈ seen ∧ (x = 0 ∨ -x ∉ seen)
  bad_iff : ∀ v, v ∈ st.2 ↔ ∃ l ∈ seen, l ≠ 0 ∧ -l ∈ seen ∧ |l| = v
  nodup : st.1.Nodup

/-- A clause after a pass of `strip_negation`: untouched, or with `-v` filtered out. -/
def stripped (v : Int) (a b : List Int) : Prop :=
  a = b ∨ a = b.filter (fun l => !(l == -v))

/-- The variable of `l` occurs in `cls`, with either sign. -/
def var_occurs (l : Int) (cls : List (List Int)) : Prop := occurs l cls ∨ occurs (-l) cls

/-- No two literals of `s` are on the same variable. -/
def abs_nodup (s : List Int) : Prop := (s.map Int.natAbs).Nodup

/-- No clause of `cls` is without literals. -/
def no_empty_clause (cls : List (List Int)) : Prop := ∀ a ∈ cls, a ≠ []

/-- What assigning the literals `s` did to a formula: every clause of `F` holds a
literal of `s` or survives, possibly shortened, in `F1`; the variables of `s` are gone
from `F1`; and every clause of `F1` comes from a clause of `F`. -/
structure Reduces (F : List (List Int)) (s : List Int) (F1 : List (List Int)) : Prop where
  cover : ∀ b ∈ F, (∃ l ∈ s, l ∈ b) ∨ ∃ a ∈ F1, a ⊆ b
  fresh : ∀ l ∈ s, ¬ var_occurs l F1
  sub : ∀ a ∈ F1, ∃ b ∈ F, a ⊆ b

/-- A reduction by literals on pairwise distinct variables of the formula. -/
structure Progress (F : List (List Int)) (s : List Int) (F1 : List (List Int)) : Prop where
  reduces : Reduces F s F1
  vars : ∀ l ∈ s, var_occurs l F
  nodup : abs_nodup s

/-- What holds when one of the loops of `solve_helper`, entered on the formula `c` with
the vector `acc`, ends; `fix` is the condition under which the loop breaks. -/
def LoopPost (fix : CNF → Prop) (c : CNF) (acc : List Int) : LoopResult → Prop
  | LoopResult.timeout => False
  | LoopResult.failed acc1 =>
    acc <+: acc1 ∧ (lits_nonzero c.clauses → ¬ satisfiable c.clauses)
  | LoopResult.broke c1 acc1 =>
    c1.empty = false ∧ (∃ s, acc1 = acc ++ s ∧ Progress c.clauses s c1.clauses) ∧
      size c1 ≤ size c ∧ (satisfiable c.clauses → satisfiable c1.clauses) ∧
      (no_empty_clause c.clauses → no_empty_clause c1.clauses) ∧ fix c1

/-- What holds when a call of `solve_helper` on the formula `c` with the vector `acc`
ends. -/
def SolvePost (c : CNF) (acc : List Int) : SolveResult → Prop
  | SolveResult.timeout => False
  | SolveResult.fault => c.empty = false ∧ ¬ no_empty_clause c.clauses
  | SolveResult.done true acc1 =>
    c.empty = false ∧ ∃ s, acc1 = acc ++ s ∧ Progress c.clauses s []
  | SolveResult.done false acc1 =>
    acc <+: acc1 ∧ (lits_nonzero c.clauses → c.empty = false → ¬ satisfiable c.clauses)

/-- What holds when the recursive call of `solve_helper` for the value `w` of the
branching literal ends; `c` is the formula the enclosing call was entered with, `acc` its
vector, `c2` the formula and `mark` the vector at the branching point. -/
def BranchPost (c c2 : CNF) (acc mark : List Int) (w : Int) : SolveResult → Prop
  | SolveResult.timeout => False
  | SolveResult.fault => False
  | SolveResult.done true acc1 => SolvePost c acc (SolveResult.done true acc1)
  | SolveResult.done false acc1 =>
    mark <+: acc1 ∧ acc1.take mark.length = mark ∧
      (lits_nonzero c2.clauses → ∀ τ, satisfies τ c2.clauses → lit_true τ w = true →
        c2.empty = false → False)

/-- The values that the completion loop of `dpll` pushes while it walks `rest`, a list
in strictly increasing order of magnitude, starting with the counter at `current`. -/
def gaps : Int → List Int → List Int
  | _, [] => []
  | current, x :: xs =>
    (List.range (|x| - current).toNat).map (fun (k : Nat) => current + (k : Int)) ++ gaps (|x| + 1) xs

/-- The clause list that the specification describes for `assignLiteral(lit)`: every
clause containing `lit` removed, every occurrence of `-lit` removed from the others. -/
def assign_literal_spec (lit : Int) (cls : List (List Int)) : List (List Int) :=
  (cls.filter (fun cl => lit ∉ cl)).map (fun cl => cl.filter (fun l => l ≠ -lit))

/-- Number of clauses. -/
def num_clauses (c : CNF) : Nat := c.clauses.length

/-- Number of literal occurrences. -/
def num_literals (c : CNF) : Nat := (c.clauses.map List.length).sum

/-- The literals that a successful path of the search appends to the vector when it
starts on the formula `c`: rounds of unit literals, rounds of pure literals and, at a
branching point, the branching literal or its negation, until no clause is left. -/
inductive Trail : CNF → List Int → Prop
  /-- The flag is down and no clause is left: the call returns `true`. -/
  | done (c : CNF) : has_empty_clause c = false → is_cnf_empty c = true → Trail c []
  /-- A round of the unit-clause loop. -/
  | units (c : CNF) (s : List Int) :
    Trail (propagate_var_values (find_unit_clauses c) c) s →
    Trail c (find_unit_clauses c ++ s)
  /-- A round of the pure-literal loop. -/
  | pures (c : CNF) (s : List Int) :
    Trail (propagate_var_values (find_pure_literals c) c) s →
    Trail c (find_pure_literals c ++ s)
  /-- The branch that assigns the branching literal. -/
  | branch_true (c : CNF) (v : Int) (s : List Int) :
    select_branching_literal c = some v →
    Trail (propagate_var_single_value v c) s → Trail c (v :: s)
  /-- The branch that assigns the negation of the branching literal. -/
  | branch_false (c : CNF) (v : Int) (s : List Int) :
    select_branching_literal c = some v →
    Trail (propagate_var_single_value (-v) c) s → Trail c (-v :: s)

/-- What holds when a loop of `solve_helper`, entered on `c` with the vector `acc`,
breaks on `c1` with the vector `acc1`, whatever the fuel. -/
structure LoopBroke (c : CNF) (acc : List Int) (c1 : CNF) (acc1 : List Int) : Prop where
  flag : c.empty = false → c1.empty = false
  nonempty : no_empty_clause c.clauses → no_empty_clause c1.clauses
  clauses_le : num_clauses c1 ≤ num_clauses c
  literals_le : num_literals c1 ≤ num_literals c
  trail : ∃ s, acc1 = acc ++ s ∧ ∀ t, Trail c1 t → Trail c (s ++ t)

/-- The formulas on which a call of `solve_helper` and the calls below it evaluate
`select_branching_literal`, in the order of evaluation. The control flow is that of
`solve_helper`. -/
def branch_states : Nat → CNF → List Int → List CNF
  | 0, _, _ => []
  | fuel + 1, c, acc =>
    if has_empty_clause c then []
    else
      match unit_loop (fuel + 1) c acc with
      | LoopResult.timeout => []
      | LoopResult.failed _ => []
      | LoopResult.broke c1 acc1 =>
        match pure_loop (fuel + 1) c1 acc1 with
        | LoopResult.timeout => []
        | LoopResult.failed _ => []
        | LoopResult.broke c2 acc2 =>
          if is_cnf_empty c2 then []
          else
            c2 :: (match select_branching_literal c2 with
              | none => []
              | some v =>
                branch_states fuel (propagate_var_single_value v c2) (acc2 ++ [v]) ++
                  (match solve_helper fuel (propagate_var_single_value v c2) (acc2 ++ [v]) with
                  | SolveResult.done false acc3 =>
                    branch_states fuel (propagate_var_single_value (-v) c2)
                      (acc3.take acc2.length ++ [-v])
                  | _ => []))

/-- The largest variable id among the literals of `acc`, `0` when there is none. -/
def max_var (acc : List Int) : Nat := (acc.map Int.natAbs).foldr max 0

/-- The formula `c` with its declared variable count replaced by `n`. -/
def set_nvars (n : Int) (c : CNF) : CNF := ⟨n, c.empty, c.clauses⟩

/-- The result of a loop with the declared variable count of its formula replaced. -/
def LoopResult.set_nvars (n : Int) : LoopResult → LoopResult
  | LoopResult.broke c acc => LoopResult.broke (CNF.set_nvars n c) acc
  | LoopResult.failed acc => LoopResult.failed acc
  | LoopResult.timeout => LoopResult.timeout

/-- A freshly constructed formula, as `parse` builds it: the flag `empty` is `false`. -/
def formula (nvars : Int) (cls : List (List Int)) : CNF := ⟨nvars, false, cls⟩

end CNF

namespace CNF

/-! ## Sets -/

theorem set_find_iff {x : Int} {s : List Int} : set_find x s = true ↔ x ∈ s := by
  simp [set_find]

theorem mem_set_insert {x y : Int} {s : List Int} :
    y ∈ set_insert x s ↔ y = x ∨ y ∈ s := by
  unfold set_insert
  split
  · constructor
    · intro h; exact Or.inr h
    · rintro (rfl | h)
      · assumption
      · exact h
  · simp [List.mem_orderedInsert]

theorem nodup_set_insert {x : Int} {s : List Int} (h : s.Nodup) :
    (set_insert x s).Nodup := by
  unfold set_insert
  split
  · exact h
  · rename_i hx
    exact ((List.perm_orderedInsert _ x s).nodup_iff).2 (List.nodup_cons.2 ⟨hx, h⟩)

theorem mem_set_erase {x y : Int} {s : List Int} :
    y ∈ set_erase x s ↔ y ∈ s ∧ y ≠ x := by
  simp [set_erase]

theorem nodup_set_erase {x : Int} {s : List Int} (h : s.Nodup) :
    (set_erase x s).Nodup := h.filter _

/-! ## Parsing -/

theorem mem_first_occurrences {x : Int} : ∀ {l : List Int},
    x ∈ first_occurrences l ↔ x ∈ l
  | [] => by simp [first_occurrences]
  | y :: ys => by
    have ih := @mem_first_occurrences x ys
    simp only [first_occurrences, List.mem_cons, List.mem_filter, ih]
    by_cases h : x = y <;> simp [h]

theorem nodup_first_occurrences : ∀ (l : List Int), (first_occurrences l).Nodup
  | [] => by simp [first_occurrences]
  | y :: ys => by
    have ih := nodup_first_occurrences ys
    simp only [first_occurrences]
    refine List.nodup_cons.2 ⟨?_, ih.filter _⟩
    simp [List.mem_filter]

theorem literals_of_line_ne_zero {line : List Int} {l : Int}
    (h : l ∈ literals_of_line line) : l ≠ 0 := by
  have := List.mem_takeWhile_imp h
  simpa using this

/-- The clause built by the reading loop, started from any state whose `used` set holds
the literals of `clause`. -/
theorem read_literals_fst : ∀ (line used clause : List Int) (flag : Bool),
    (∀ x, x ∈ used ↔ x ∈ clause) →
    (read_literals line used clause flag).1 =
      clause ++ (first_occurrences (literals_of_line line)).filter (fun y => y ∉ clause)
  | [], used, clause, flag, _ => by
    simp [read_literals, literals_of_line, first_occurrences]
  | literal :: rest, used, clause, flag, hu => by
    unfold read_literals
    by_cases h0 : literal = 0
    · simp [h0, literals_of_line, first_occurrences]
    · have hl : literals_of_line (literal :: rest) = literal :: literals_of_line rest := by
        simp [literals_of_line, h0]
      rw [if_neg h0, hl]
      by_cases hm : literal ∈ used
      · rw [if_pos (set_find_iff.2 hm), read_literals_fst rest used clause flag hu]
        have hc : literal ∈ clause := (hu _).1 hm
        simp only [first_occurrences, List.filter_cons, List.filter_filter]
        simp only [hc, not_true_eq_false, decide_False, Bool.false_eq_true, if_false]
        congr 1
        apply List.filter_congr
        intro y _
        by_cases hy : y ∈ clause
        · simp [hy]
        · have : y ≠ literal := fun e => hy (e ▸ hc)
          simp [hy, this]
      · have hs : ¬ set_find literal used = true := fun e => hm (set_find_iff.1 e)
        rw [if_neg hs]
        have hu2 : ∀ x, x ∈ set_insert literal used ↔ x ∈ clause ++ [literal] := by
          intro x
          rw [mem_set_insert, List.mem_append, hu x]
          simp [or_comm]
        rw [read_literals_fst rest _ _ _ hu2]
        have hc : literal ∉ clause := fun e => hm ((hu _).2 e)
        simp only [first_occurrences, List.filter_cons, List.filter_filter]
        simp only [hc, not_false_eq_true, decide_True, if_true, List.append_assoc,
          List.singleton_append]
        congr 2
        apply List.filter_congr
        intro y _
        by_cases hy : y ∈ clause <;> by_cases hy2 : y = literal <;> simp [hy, hy2]

/-- The flag computed by the reading loop tells whether the clause built holds a
complementary pair. -/
theorem read_literals_snd : ∀ (line used clause : List Int) (flag : Bool),
    (∀ x, x ∈ used ↔ x ∈ clause) →
    (flag = true ↔ ∃ l ∈ clause, -l ∈ clause) →
    ((read_literals line used clause flag).2 = true ↔
      ∃ l ∈ (read_literals line used clause flag).1,
        -l ∈ (read_literals line used clause flag).1)
  | [], used, clause, flag, _, hf => by simpa [read_literals] using hf
  | literal :: rest, used, clause, flag, hu, hf => by
    unfold read_literals
    by_cases h0 : literal = 0
    · simpa [h0] using hf
    · rw [if_neg h0]
      by_cases hm : literal ∈ used
      · rw [if_pos (set_find_iff.2 hm)]
        exact read_literals_snd rest used clause flag hu hf
      · have hs : ¬ set_find literal used = true := fun e => hm (set_find_iff.1 e)
        rw [if_neg hs]
        have hu2 : ∀ x, x ∈ set_insert literal used ↔ x ∈ clause ++ [literal] := by
          intro x
          rw [mem_set_insert, List.mem_append, hu x]
          simp [or_comm]
        apply read_literals_snd rest _ _ _ hu2
        have hneg : -literal ≠ literal := by omega
        constructor
        · intro h
          by_cases hn : set_find (-literal) used = true
          · exact ⟨literal, by simp, by
              simp [(hu _).1 (set_find_iff.1 hn)]⟩
          · rw [if_neg hn] at h
            obtain ⟨l, h1, h2⟩ := hf.1 h
            exact ⟨l, by simp [h1], by simp [h2]⟩
        · rintro ⟨l, h1, h2⟩
          by_cases hn : set_find (-literal) used = true
          · simp [hn]
          · rw [if_neg hn]
            have hn2 : -literal ∉ clause := fun e => hn (set_find_iff.2 ((hu _).2 e))
            rw [List.mem_append, List.mem_singleton] at h1 h2
            rcases h1 with h1 | h1
            · rcases h2 with h2 | h2
              · exact hf.2 ⟨l, h1, h2⟩
              · exfalso; apply hn2
                have : l = -literal := by omega
                exact this ▸ h1
            · rcases h2 with h2 | h2
              · exfalso; apply hn2; exact h1 ▸ h2
              · exfalso; omega

theorem read_clause_fst (line : List Int) :
    (read_clause line).1 = first_occurrences (literals_of_line line) := by
  unfold read_clause
  rw [read_literals_fst line [] [] false (by simp)]
  simp

theorem read_clause_snd (line : List Int) :
    (read_clause line).2 = true ↔ tautological line := by
  unfold read_clause tautological
  rw [read_literals_snd line [] [] false (by simp) (by simp)]
  have := read_clause_fst line
  unfold read_clause at this
  rw [this]
  simp only [mem_first_occurrences]

theorem read_clauses_eq : ∀ (lines : List (List Int)) (clauses : List (List Int)),
    read_clauses lines clauses =
      clauses ++ lines.filterMap (fun line =>
        if tautological line then none else some (first_occurrences (literals_of_line line)))
  | [], clauses => by simp [read_clauses]
  | line :: rest, clauses => by
    unfold read_clauses
    by_cases h : tautological line
    · have h2 : (read_clause line).2 = true := (read_clause_snd line).2 h
      simp only [h2, Bool.not_true, Bool.false_eq_true, if_false]
      rw [read_clauses_eq rest clauses]
      simp [List.filterMap_cons, h]
    · have h2 : (read_clause line).2 = false := by
        cases e : (read_clause line).2
        · rfl
        · exact absurd ((read_clause_snd line).1 e) h
      simp only [h2, Bool.not_false, if_true]
      rw [read_clauses_eq rest _, read_clause_fst]
      simp [List.filterMap_cons, h]

/-! ## Unit clauses -/

theorem unit_fold_mem (u : Int) : ∀ (cls : List (List Int)) (init : List Int),
    u ∈ cls.foldl (fun ret a => match a with
      | [x] => set_insert x ret
      | _ => ret) init ↔ u ∈ init ∨ [u] ∈ cls
  | [], init => by simp
  | a :: cls, init => by
    rw [List.foldl_cons, unit_fold_mem u cls]
    match a with
    | [] => simp
    | [x] =>
      simp only [mem_set_insert, List.mem_cons, List.cons.injEq, and_true]
      tauto
    | x :: y :: r => simp

theorem unit_fold_nodup : ∀ (cls : List (List Int)) (init : List Int), init.Nodup →
    (cls.foldl (fun ret a => match a with
      | [x] => set_insert x ret
      | _ => ret) init).Nodup
  | [], init, h => by simpa using h
  | a :: cls, init, h => by
    rw [List.foldl_cons]
    apply unit_fold_nodup cls
    match a with
    | [] => exact h
    | [x] => exact nodup_set_insert h
    | x :: y :: r => exact h

theorem mem_find_unit_clauses {c : CNF} {u : Int} :
    u ∈ find_unit_clauses c ↔ [u] ∈ c.clauses := by
  unfold find_unit_clauses
  rw [unit_fold_mem]
  simp

theorem nodup_find_unit_clauses (c : CNF) : (find_unit_clauses c).Nodup :=
  unit_fold_nodup _ _ List.nodup_nil

/-! ## Pure literals -/

theorem pureInv_nil : PureInv [] ([], []) :=
  ⟨by simp, by simp, List.nodup_nil⟩

theorem abs_eq_cases {a b : Int} (h : |a| = |b|) : a = b ∨ a = -b := by
  rcases abs_eq_abs.1 h with h | h
  · exact Or.inl h
  · exact Or.inr h

theorem pureInv_step {seen : List Int} {st : List Int × List Int} (l : Int)
    (h : PureInv seen st) : PureInv (seen ++ [l]) (pure_step st l) := by
  obtain ⟨hr, hb, hn⟩ := h
  unfold pure_step
  by_cases h1 : |l| ∈ st.2
  · rw [if_pos (set_find_iff.2 h1)]
    obtain ⟨m, hm, hm0, hmn, hma⟩ := (hb _).1 h1
    have hl0 : l ≠ 0 := by
      intro e; rw [e] at hma; simp at hma; exact hm0 hma
    have hboth : l ∈ seen ∧ -l ∈ seen := by
      rcases abs_eq_cases hma with e | e
      · subst e; exact ⟨hm, hmn⟩
      · subst e; simpa using And.intro hmn hm
    refine ⟨?_, ?_, hn⟩
    · intro x
      rw [hr x]
      simp only [List.mem_append, List.mem_singleton]
      constructor
      · rintro ⟨hx, hx2⟩
        refine ⟨Or.inl hx, ?_⟩
        rcases hx2 with hx2 | hx2
        · exact Or.inl hx2
        · right
          rintro (e | e)
          · exact hx2 e
          · have : x = -l := by omega
            apply hx2
            rw [this]; simpa using hboth.1
      · rintro ⟨hx, hx2⟩
        rcases hx with hx | hx
        · refine ⟨hx, ?_⟩
          rcases hx2 with hx2 | hx2
          · exact Or.inl hx2
          · exact Or.inr (fun e => hx2 (Or.inl e))
        · subst hx
          rcases hx2 with hx2 | hx2
          · exact absurd hx2 hl0
          · exact absurd (Or.inl hboth.2) hx2
    · intro v
      rw [hb v]
      constructor
      · rintro ⟨m2, h2, h3, h4, h5⟩
        exact ⟨m2, by simp [h2], h3, by simp [h4], h5⟩
      · rintro ⟨m2, h2, h3, h4, h5⟩
        simp only [List.mem_append, List.mem_singleton] at h2 h4
        rcases h2 with h2 | h2
        · rcases h4 with h4 | h4
          · exact ⟨m2, h2, h3, h4, h5⟩
          · refine ⟨l, hboth.1, hl0, hboth.2, ?_⟩
            rw [← h5, ← h4, abs_neg]
        · subst h2
          exact ⟨m2, hboth.1, h3, hboth.2, h5⟩
  · have h1f : ¬ set_find |l| st.2 = true := fun e => h1 (set_find_iff.1 e)
    rw [if_neg h1f]
    have hnb : ¬ (l ≠ 0 ∧ l ∈ seen ∧ -l ∈ seen) := by
      rintro ⟨a, b, c⟩
      exact h1 ((hb _).2 ⟨l, b, a, c, rfl⟩)
    by_cases h2 : l ∈ st.1
    · rw [if_pos (set_find_iff.2 h2)]
      obtain ⟨hls, hl2⟩ := (hr l).1 h2
      refine ⟨?_, ?_, hn⟩
      · intro x
        rw [hr x]
        simp only [List.mem_append, List.mem_singleton]
        constructor
        · rintro ⟨hx, hx2⟩
          refine ⟨Or.inl hx, ?_⟩
          rcases hx2 with hx2 | hx2
          · exact Or.inl hx2
          · by_cases hx0 : x = 0
            · exact Or.inl hx0
            · right
              rintro (e | e)
              · exact hx2 e
              · have hxl : x = -l := by omega
                rcases hl2 with hl2 | hl2
                · apply hx0; rw [hxl, hl2]; rfl
                · apply hl2; rw [← hxl]; exact hx
        · rintro ⟨hx, hx2⟩
          rcases hx with hx | hx
          · refine ⟨hx, ?_⟩
            rcases hx2 with hx2 | hx2
            · exact Or.inl hx2
            · exact Or.inr (fun e => hx2 (Or.inl e))
          · subst hx
            exact ⟨hls, hl2⟩
      · intro v
        rw [hb v]
        constructor
        · rintro ⟨m2, h3, h4, h5, h6⟩
          exact ⟨m2, by simp [h3], h4, by simp [h5], h6⟩
        · rintro ⟨m2, h3, h4, h5, h6⟩
          simp only [List.mem_append, List.mem_singleton] at h3 h5
          rcases h3 with h3 | h3
          · rcases h5 with h5 | h5
            · exact ⟨m2, h3, h4, h5, h6⟩
            · exfalso
              have e : m2 = -l := by omega
              rcases hl2 with hl2 | hl2
              · apply h4; rw [e, hl2]; rfl
              · apply hl2; rw [← e]; exact h3
          · subst h3
            rcases h5 with h5 | h5
            · exfalso
              rcases hl2 with hl2 | hl2
              · exact h4 hl2
              · exact hl2 h5
            · exfalso; omega
    · have h2f : ¬ set_find l st.1 = true := fun e => h2 (set_find_iff.1 e)
      rw [if_neg h2f]
      have hl0 : l ∈ seen → l ≠ 0 ∧ -l ∈ seen := by
        intro hs
        by_contra hc
        apply h2
        rw [hr l]
        refine ⟨hs, ?_⟩
        by_cases e : l = 0
        · exact Or.inl e
        · right; intro e2; exact hc ⟨e, e2⟩
      have hnot : l ∉ seen := fun hs => hnb ⟨(hl0 hs).1, hs, (hl0 hs).2⟩
      by_cases h3 : -l ∈ st.1
      · rw [if_pos (set_find_iff.2 h3)]
        obtain ⟨hns, hn2⟩ := (hr (-l)).1 h3
        have hlne : l ≠ 0 := by
          intro e; apply hnot; rw [e] at hns; simpa [e] using hns
        refine ⟨?_, ?_, nodup_set_erase hn⟩
        · intro x
          show x ∈ set_erase (-l) st.1 ↔ _
          rw [mem_set_erase, hr x]
          simp only [List.mem_append, List.mem_singleton]
          constructor
          · rintro ⟨⟨hx, hx2⟩, hx3⟩
            refine ⟨Or.inl hx, ?_⟩
            rcases hx2 with hx2 | hx2
            · exact Or.inl hx2
            · right
              rintro (e | e)
              · exact hx2 e
              · apply hx3; omega
          · rintro ⟨hx, hx2⟩
            rcases hx with hx | hx
            · refine ⟨⟨hx, ?_⟩, ?_⟩
              · rcases hx2 with hx2 | hx2
                · exact Or.inl hx2
                · exact Or.inr (fun e => hx2 (Or.inl e))
              · intro e
                rcases hx2 with hx2 | hx2
                · apply hlne; omega
                · apply hx2; right; omega
            · subst hx
              rcases hx2 with hx2 | hx2
              · exact absurd hx2 hlne
              · exact absurd (Or.inl hns) hx2
        · intro v
          show v ∈ set_insert |l| st.2 ↔ _
          rw [mem_set_insert, hb v]
          constructor
          · rintro (e | ⟨m2, h4, h5, h6, h7⟩)
            · exact ⟨l, by simp, hlne, by simp [hns], e.symm⟩
            · exact ⟨m2, by simp [h4], h5, by simp [h6], h7⟩
          · rintro ⟨m2, h4, h5, h6, h7⟩
            simp only [List.mem_append, List.mem_singleton] at h4 h6
            rcases h4 with h4 | h4
            · rcases h6 with h6 | h6
              · exact Or.inr ⟨m2, h4, h5, h6, h7⟩
              · left; rw [← h7, ← h6, abs_neg]
            · subst h4; exact Or.inl h7.symm
      · have h3f : ¬ set_find (-l) st.1 = true := fun e => h3 (set_find_iff.1 e)
        rw [if_neg h3f]
        have hnn : -l ∉ seen ∨ l = 0 := by
          by_cases e : l = 0
          · exact Or.inr e
          · left
            intro hs
            apply h3
            rw [hr (-l)]
            refine ⟨hs, Or.inr ?_⟩
            simpa using hnot
        have hnn2 : -l ∉ seen := by
          rcases hnn with h | h
          · exact h
          · rw [h]; rw [h] at hnot; simpa using hnot
        refine ⟨?_, ?_, nodup_set_insert hn⟩
        · intro x
          show x ∈ set_insert l st.1 ↔ _
          rw [mem_set_insert, hr x]
          simp only [List.mem_append, List.mem_singleton]
          constructor
          · rintro (e | ⟨hx, hx2⟩)
            · subst e
              refine ⟨Or.inr rfl, ?_⟩
              by_cases e0 : x = 0
              · exact Or.inl e0
              · right
                rintro (e | e)
                · exact hnn2 e
                · omega
            · refine ⟨Or.inl hx, ?_⟩
              rcases hx2 with hx2 | hx2
              · exact Or.inl hx2
              · by_cases e0 : x = 0
                · exact Or.inl e0
                · right
                  rintro (e | e)
                  · exact hx2 e
                  · apply hnn2
                    have : x = -l := by omega
                    rw [← this]; exact hx
          · rintro ⟨hx, hx2⟩
            rcases hx with hx | hx
            · right
              refine ⟨hx, ?_⟩
              rcases hx2 with hx2 | hx2
              · exact Or.inl hx2
              · exact Or.inr (fun e => hx2 (Or.inl e))
            · exact Or.inl hx
        · intro v
          show v ∈ st.2 ↔ _
          rw [hb v]
          constructor
          · rintro ⟨m2, h4, h5, h6, h7⟩
            exact ⟨m2, by simp [h4], h5, by simp [h6], h7⟩
          · rintro ⟨m2, h4, h5, h6, h7⟩
            simp only [List.mem_append, List.mem_singleton] at h4 h6
            rcases h4 with h4 | h4
            · rcases h6 with h6 | h6
              · exact ⟨m2, h4, h5, h6, h7⟩
              · exfalso; apply hnn2
                have : m2 = -l := by omega
                rw [← this]; exact h4
            · subst h4
              rcases h6 with h6 | h6
              · exact absurd h6 hnn2
              · exfalso; omega

theorem pureInv_foldl : ∀ (ls seen : List Int) (st : List Int × List Int),
    PureInv seen st → PureInv (seen ++ ls) (ls.foldl pure_step st)
  | [], seen, st, h => by simpa using h
  | l :: ls, seen, st, h => by
    have := pureInv_foldl ls (seen ++ [l]) (pure_step st l) (pureInv_step l h)
    simpa using this

theorem pureInv_clauses : ∀ (cls : List (List Int)) (seen : List Int)
    (st : List Int × List Int), PureInv seen st →
    PureInv (seen ++ cls.flatten) (cls.foldl (fun st cl => cl.foldl pure_step st) st)
  | [], seen, st, h => by simpa using h
  | cl :: cls, seen, st, h => by
    have := pureInv_clauses cls (seen ++ cl) (cl.foldl pure_step st) (pureInv_foldl cl seen st h)
    simpa using this

theorem occurs_iff_mem_flatten {l : Int} {cls : List (List Int)} :
    occurs l cls ↔ l ∈ cls.flatten := by
  simp [occurs, List.mem_flatten]

/-- The set returned by `find_pure_literals`: the literals that occur and whose negation
does not (a literal `0`, which is its own negation, is returned whenever it occurs). -/
theorem mem_find_pure_literals {c : CNF} {l : Int} :
    l ∈ find_pure_literals c ↔ occurs l c.clauses ∧ (l = 0 ∨ ¬ occurs (-l) c.clauses) := by
  have h := pureInv_clauses c.clauses [] ([], []) pureInv_nil
  unfold find_pure_literals
  rw [h.ret_iff l]
  simp [occurs_iff_mem_flatten]

theorem nodup_find_pure_literals (c : CNF) : (find_pure_literals c).Nodup := by
  have h := pureInv_clauses c.clauses [] ([], []) pureInv_nil
  exact h.nodup

/-! ## Propagation -/

theorem stripped_subset {v : Int} {a b : List Int} (h : stripped v a b) : a ⊆ b := by
  rcases h with h | h
  · rw [h]; exact List.Subset.refl _
  · rw [h]; exact fun x hx => (List.mem_filter.1 hx).1

theorem stripped_length {v : Int} {a b : List Int} (h : stripped v a b) :
    a.length ≤ b.length := by
  rcases h with h | h
  · rw [h]
  · rw [h]; exact List.length_filter_le _ _

theorem strip_negation_mem (v : Int) : ∀ (cs : List (List Int)) (a : List Int),
    a ∈ (strip_negation v cs).1 → ∃ b ∈ cs, stripped v a b
  | [], a, h => by simp [strip_negation] at h
  | c :: cs, a, h => by
    unfold strip_negation at h
    simp only at h
    split at h
    · rcases List.mem_cons.1 h with h | h
      · exact ⟨c, by simp, Or.inr h⟩
      · exact ⟨a, by simp [h], Or.inl rfl⟩
    · rcases List.mem_cons.1 h with h | h
      · exact ⟨c, by simp, Or.inr h⟩
      · obtain ⟨b, hb, hs⟩ := strip_negation_mem v cs a h
        exact ⟨b, by simp [hb], hs⟩

theorem strip_negation_cover (v : Int) : ∀ (cs : List (List Int)) (b : List Int),
    b ∈ cs → ∃ a ∈ (strip_negation v cs).1, stripped v a b
  | [], b, h => by simp at h
  | c :: cs, b, h => by
    unfold strip_negation
    simp only
    split
    · rcases List.mem_cons.1 h with h | h
      · exact ⟨c.filter (fun l => !(l == -v)), by simp, Or.inr (by rw [h])⟩
      · exact ⟨b, by simp [h], Or.inl rfl⟩
    · rcases List.mem_cons.1 h with h | h
      · exact ⟨c.filter (fun l => !(l == -v)), by simp, Or.inr (by rw [h])⟩
      · obtain ⟨a, ha, hs⟩ := strip_negation_cover v cs b h
        exact ⟨a, by simp [ha], hs⟩

theorem strip_negation_size (v : Int) : ∀ (cs : List (List Int)),
    ((strip_negation v cs).1.map (fun cl => cl.length + 1)).sum ≤
      (cs.map (fun cl => cl.length + 1)).sum
  | [] => by simp [strip_negation]
  | c :: cs => by
    have hf : (c.filter (fun l => !(l == -v))).length ≤ c.length :=
      List.length_filter_le _ _
    have ih := strip_negation_size v cs
    unfold strip_negation
    simp only
    split
    · simp only [List.map_cons, List.sum_cons]; omega
    · simp only [List.map_cons, List.sum_cons]; omega

theorem strip_negation_size_head (v : Int) (c : List Int) (cs : List (List Int))
    (h : -v ∈ c) :
    ((strip_negation v (c :: cs)).1.map (fun cl => cl.length + 1)).sum <
      ((c :: cs).map (fun cl => cl.length + 1)).sum := by
  have hf : (c.filter (fun l => !(l == -v))).length < c.length := by
    apply List.length_filter_lt_length_iff_exists.2
    exact ⟨-v, h, by simp⟩
  have ih := strip_negation_size v cs
  unfold strip_negation
  simp only
  split
  · simp only [List.map_cons, List.sum_cons]; omega
  · simp only [List.map_cons, List.sum_cons]; omega

/-- When the stripping loop runs to its end, every clause has lost `-v` and none is
left without a literal. -/
theorem strip_negation_false (v : Int) : ∀ (cs : List (List Int)),
    (strip_negation v cs).2 = false →
    (strip_negation v cs).1 = cs.map (fun c => c.filter (fun l => !(l == -v))) ∧
      ∀ a ∈ (strip_negation v cs).1, a ≠ []
  | [], _ => by simp [strip_negation]
  | c :: cs, h => by
    unfold strip_negation at h ⊢
    simp only at h ⊢
    split at h
    · simp at h
    · rename_i hne
      rw [if_neg hne]
      obtain ⟨h1, h2⟩ := strip_negation_false v cs h
      refine ⟨by simp [h1], ?_⟩
      intro a ha
      rcases List.mem_cons.1 ha with ha | ha
      · rw [ha]; intro e; apply hne; rw [e]; rfl
      · exact h2 a ha

/-- When the stripping loop stops early, a clause without literals is left behind. -/
theorem strip_negation_true (v : Int) : ∀ (cs : List (List Int)),
    (strip_negation v cs).2 = true → [] ∈ (strip_negation v cs).1
  | [], h => by simp [strip_negation] at h
  | c :: cs, h => by
    unfold strip_negation at h ⊢
    simp only at h ⊢
    split
    · rename_i he
      rw [List.length_eq_zero] at he
      rw [he]; simp
    · rename_i hne
      rw [if_neg hne] at h
      exact List.mem_cons_of_mem _ (strip_negation_true v cs h)

theorem propagate_mem {v : Int} {c : CNF} {a : List Int}
    (h : a ∈ (propagate_var_single_value v c).clauses) :
    ∃ b ∈ c.clauses, v ∉ b ∧ stripped v a b := by
  unfold propagate_var_single_value at h
  obtain ⟨b, hb, hs⟩ := strip_negation_mem v _ a h
  rw [List.mem_filter] at hb
  exact ⟨b, hb.1, by simpa using hb.2, hs⟩

theorem propagate_cover {v : Int} {c : CNF} {b : List Int} (h : b ∈ c.clauses) :
    v ∈ b ∨ ∃ a ∈ (propagate_var_single_value v c).clauses, stripped v a b := by
  by_cases hv : v ∈ b
  · exact Or.inl hv
  · right
    unfold propagate_var_single_value
    apply strip_negation_cover
    rw [List.mem_filter]
    exact ⟨h, by simpa using hv⟩

theorem propagate_size_le (v : Int) (c : CNF) :
    size (propagate_var_single_value v c) ≤ size c := by
  unfold propagate_var_single_value size
  refine le_trans (strip_negation_size v _) ?_
  apply List.Sublist.sum_le_sum
  · exact (List.filter_sublist _).map _
  · intro x _; exact Nat.zero_le _

theorem filter_size_lt {p : List Int → Bool} : ∀ {cs : List (List Int)} {b : List Int},
    b ∈ cs → p b = false →
    ((cs.filter p).map (fun cl => cl.length + 1)).sum <
      (cs.map (fun cl => cl.length + 1)).sum
  | [], b, h, _ => by simp at h
  | c :: cs, b, h, hp => by
    have hle : ((cs.filter p).map (fun cl => cl.length + 1)).sum ≤
        (cs.map (fun cl => cl.length + 1)).sum := by
      apply List.Sublist.sum_le_sum
      · exact (List.filter_sublist _).map _
      · intro x _; exact Nat.zero_le _
    rcases List.mem_cons.1 h with h | h
    · subst h
      simp only [List.filter_cons, hp, Bool.false_eq_true, if_false, List.map_cons,
        List.sum_cons]
      omega
    · have ih := filter_size_lt h hp
      by_cases hc : p c = true
      · rw [List.filter_cons, if_pos hc]
        simp only [List.map_cons, List.sum_cons]
        omega
      · rw [List.filter_cons, if_neg hc]
        simp only [List.map_cons, List.sum_cons]
        omega

/-- Assigning a literal that occurs removes a clause. -/
theorem propagate_size_lt {v : Int} {c : CNF} (h : occurs v c.clauses) :
    size (propagate_var_single_value v c) < size c := by
  obtain ⟨b, hb, hv⟩ := h
  unfold propagate_var_single_value size
  refine lt_of_le_of_lt (strip_negation_size v _) ?_
  exact filter_size_lt hb (by simp [hv])

/-- Assigning the negation of the first literal of the first clause shrinks the
formula. -/
theorem propagate_neg_size_lt {v : Int} {c : CNF} {r : List Int} {cs : List (List Int)}
    (h : c.clauses = (v :: r) :: cs) :
    size (propagate_var_single_value (-v) c) < size c := by
  by_cases ho : occurs (-v) c.clauses
  · exact propagate_size_lt ho
  · have hkeep : c.clauses.filter (fun cl => !(decide (-v ∈ cl))) = c.clauses := by
      rw [List.filter_eq_self]
      intro a ha
      have : -v ∉ a := fun e => ho ⟨a, ha, e⟩
      simp [this]
    unfold propagate_var_single_value size
    simp only [hkeep]
    rw [h]
    apply strip_negation_size_head
    simp

theorem propagate_nvars (v : Int) (c : CNF) :
    (propagate_var_single_value v c).nvars = c.nvars := rfl

/-- A call that leaves the flag down has removed `v` and `-v` from the formula and left
no clause without literals. -/
theorem propagate_clean {v : Int} {c : CNF}
    (h : (propagate_var_single_value v c).empty = false) :
    c.empty = false ∧
      (propagate_var_single_value v c).clauses =
        (c.clauses.filter (fun cl => !(decide (v ∈ cl)))).map
          (fun cl => cl.filter (fun l => !(l == -v))) ∧
      (∀ a ∈ (propagate_var_single_value v c).clauses, a ≠ []) ∧
      ¬ occurs v (propagate_var_single_value v c).clauses ∧
      ¬ occurs (-v) (propagate_var_single_value v c).clauses := by
  unfold propagate_var_single_value at h ⊢
  simp only [Bool.or_eq_false_iff] at h
  obtain ⟨h1, h2⟩ := strip_negation_false v _ h.2
  refine ⟨h.1, h1, h2, ?_, ?_⟩
  · rintro ⟨a, ha, hv⟩
    simp only at ha
    rw [h1] at ha
    simp only [List.mem_map, List.mem_filter] at ha
    obtain ⟨b, ⟨_, hb2⟩, rfl⟩ := ha
    have := (List.mem_filter.1 hv).1
    simp at hb2
    exact hb2 this
  · rintro ⟨a, ha, hv⟩
    simp only at ha
    rw [h1] at ha
    simp only [List.mem_map, List.mem_filter] at ha
    obtain ⟨b, _, rfl⟩ := ha
    have := (List.mem_filter.1 hv).2
    simp at this

/-! ## Reductions -/

theorem occurs_of_sub {F F1 : List (List Int)} (h : ∀ a ∈ F1, ∃ b ∈ F, a ⊆ b) {l : Int}
    (ho : occurs l F1) : occurs l F := by
  obtain ⟨a, ha, hl⟩ := ho
  obtain ⟨b, hb, hab⟩ := h a ha
  exact ⟨b, hb, hab hl⟩

theorem var_occurs_of_sub {F F1 : List (List Int)} (h : ∀ a ∈ F1, ∃ b ∈ F, a ⊆ b) {l : Int}
    (ho : var_occurs l F1) : var_occurs l F := by
  rcases ho with ho | ho
  · exact Or.inl (occurs_of_sub h ho)
  · exact Or.inr (occurs_of_sub h ho)

theorem lits_nonzero_of_sub {F F1 : List (List Int)} (h : ∀ a ∈ F1, ∃ b ∈ F, a ⊆ b)
    (hz : lits_nonzero F) : lits_nonzero F1 := by
  intro a ha l hl
  obtain ⟨b, hb, hab⟩ := h a ha
  exact hz b hb l (hab hl)

theorem reduces_refl (F : List (List Int)) : Reduces F [] F :=
  ⟨fun b hb => Or.inr ⟨b, hb, List.Subset.refl _⟩, by simp,
    fun a ha => ⟨a, ha, List.Subset.refl _⟩⟩

theorem reduces_trans {F F1 F2 : List (List Int)} {s1 s2 : List Int}
    (h1 : Reduces F s1 F1) (h2 : Reduces F1 s2 F2) : Reduces F (s1 ++ s2) F2 := by
  refine ⟨?_, ?_, ?_⟩
  · intro b hb
    rcases h1.cover b hb with ⟨l, hl, hlb⟩ | ⟨a, ha, hab⟩
    · exact Or.inl ⟨l, by simp [hl], hlb⟩
    · rcases h2.cover a ha with ⟨l, hl, hla⟩ | ⟨a2, ha2, hab2⟩
      · exact Or.inl ⟨l, by simp [hl], hab hla⟩
      · exact Or.inr ⟨a2, ha2, fun x hx => hab (hab2 hx)⟩
  · intro l hl
    rcases List.mem_append.1 hl with hl | hl
    · exact fun ho => h1.fresh l hl (var_occurs_of_sub h2.sub ho)
    · exact h2.fresh l hl
  · intro a ha
    obtain ⟨b, hb, hab⟩ := h2.sub a ha
    obtain ⟨b2, hb2, hab2⟩ := h1.sub b hb
    exact ⟨b2, hb2, fun x hx => hab2 (hab hx)⟩

theorem natAbs_eq_cases {a b : Int} (h : a.natAbs = b.natAbs) : a = b ∨ a = -b :=
  Int.natAbs_eq_natAbs_iff.1 h

theorem var_occurs_of_natAbs_eq {a b : Int} {F : List (List Int)}
    (h : a.natAbs = b.natAbs) (ho : var_occurs a F) : var_occurs b F := by
  rcases natAbs_eq_cases h with e | e
  · rw [← e]; exact ho
  · rcases ho with ho | ho
    · right; rw [e] at ho; exact ho
    · left; rw [e] at ho; simpa using ho

theorem progress_refl (F : List (List Int)) : Progress F [] F :=
  ⟨reduces_refl F, by simp, by simp [abs_nodup]⟩

theorem progress_trans {F F1 F2 : List (List Int)} {s1 s2 : List Int}
    (h1 : Progress F s1 F1) (h2 : Progress F1 s2 F2) : Progress F (s1 ++ s2) F2 := by
  refine ⟨reduces_trans h1.reduces h2.reduces, ?_, ?_⟩
  · intro l hl
    rcases List.mem_append.1 hl with hl | hl
    · exact h1.vars l hl
    · exact var_occurs_of_sub h1.reduces.sub (h2.vars l hl)
  · unfold abs_nodup
    rw [List.map_append]
    refine List.Nodup.append h1.nodup h2.nodup ?_
    intro n hn1 hn2
    obtain ⟨a, ha, rfl⟩ := List.mem_map.1 hn1
    obtain ⟨b, hb, hab⟩ := List.mem_map.1 hn2
    exact h1.reduces.fresh a ha (var_occurs_of_natAbs_eq hab (h2.vars b hb))

theorem reduces_single {v : Int} {c : CNF}
    (h : (propagate_var_single_value v c).empty = false) :
    Reduces c.clauses [v] (propagate_var_single_value v c).clauses := by
  obtain ⟨_, _, _, h4, h5⟩ := propagate_clean h
  refine ⟨?_, ?_, ?_⟩
  · intro b hb
    rcases propagate_cover (v := v) hb with hv | ⟨a, ha, hs⟩
    · exact Or.inl ⟨v, by simp, hv⟩
    · exact Or.inr ⟨a, ha, stripped_subset hs⟩
  · intro l hl
    rw [List.mem_singleton] at hl
    subst hl
    rintro (ho | ho)
    · exact h4 ho
    · exact h5 ho
  · intro a ha
    obtain ⟨b, hb, _, hs⟩ := propagate_mem ha
    exact ⟨b, hb, stripped_subset hs⟩

theorem propagate_values_empty_mono : ∀ (vs : List Int) (c : CNF),
    (propagate_var_values vs c).empty = false → c.empty = false
  | [], c, h => h
  | v :: vs, c, h => by
    unfold propagate_var_values at h
    simp only at h
    split at h
    · rename_i he; rw [he] at h; exact absurd h (by simp)
    · rename_i he
      have he2 : (propagate_var_single_value v c).empty = false := by simpa using he
      exact (propagate_clean he2).1

/-- One round of either loop of `solve_helper` that leaves the flag down. -/
theorem reduces_round : ∀ (vs : List Int) (c : CNF),
    (propagate_var_values vs c).empty = false →
    Reduces c.clauses vs (propagate_var_values vs c).clauses
  | [], c, _ => reduces_refl _
  | v :: vs, c, h => by
    unfold propagate_var_values at h ⊢
    simp only at h ⊢
    split at h
    · rename_i he; rw [he] at h; exact absurd h (by simp)
    · rename_i he
      rw [if_neg he]
      have he2 : (propagate_var_single_value v c).empty = false := by simpa using he
      have := reduces_trans (reduces_single he2) (reduces_round vs _ h)
      simpa using this

theorem round_no_empty_clause : ∀ (vs : List Int) (c : CNF), vs ≠ [] →
    (propagate_var_values vs c).empty = false →
    no_empty_clause (propagate_var_values vs c).clauses
  | [], _, h, _ => absurd rfl h
  | v :: vs, c, _, h => by
    unfold propagate_var_values at h ⊢
    simp only at h ⊢
    split at h
    · rename_i he; rw [he] at h; exact absurd h (by simp)
    · rename_i he
      rw [if_neg he]
      have he2 : (propagate_var_single_value v c).empty = false := by simpa using he
      match vs with
      | [] => exact (propagate_clean he2).2.2.1
      | w :: ws => exact round_no_empty_clause (w :: ws) _ (by simp) h

theorem round_size_le : ∀ (vs : List Int) (c : CNF),
    size (propagate_var_values vs c) ≤ size c
  | [], c => le_refl _
  | v :: vs, c => by
    unfold propagate_var_values
    simp only
    split
    · exact propagate_size_le v c
    · exact le_trans (round_size_le vs _) (propagate_size_le v c)

theorem round_size_lt {v : Int} {vs : List Int} {c : CNF} (h : occurs v c.clauses) :
    size (propagate_var_values (v :: vs) c) < size c := by
  unfold propagate_var_values
  simp only
  split
  · exact propagate_size_lt h
  · exact lt_of_le_of_lt (round_size_le vs _) (propagate_size_lt h)

/-! ## Valuations -/

theorem lit_true_neg (τ : Nat → Bool) {l : Int} (h : l ≠ 0) :
    lit_true τ (-l) = !(lit_true τ l) := by
  unfold lit_true
  rw [Int.natAbs_neg]
  by_cases hp : 0 < l
  · have : ¬ 0 < -l := by omega
    simp [hp, this]
  · have : 0 < -l := by omega
    simp [hp, this]

theorem satisfies_no_empty {τ : Nat → Bool} {cls : List (List Int)}
    (h : satisfies τ cls) : no_empty_clause cls := by
  intro a ha e
  obtain ⟨l, hl, _⟩ := h a ha
  rw [e] at hl
  simp at hl

/-- Assigning a literal that the valuation makes true keeps the formula true and the
flag untouched. -/
theorem propagate_satisfies {τ : Nat → Bool} {v : Int} {c : CNF}
    (hs : satisfies τ c.clauses) (hv : lit_true τ v = true) :
    satisfies τ (propagate_var_single_value v c).clauses ∧
      (propagate_var_single_value v c).empty = c.empty := by
  have h1 : satisfies τ (propagate_var_single_value v c).clauses := by
    intro a ha
    obtain ⟨b, hb, hvb, hst⟩ := propagate_mem ha
    obtain ⟨m, hm, hmt⟩ := hs b hb
    rcases hst with e | e
    · rw [e]; exact ⟨m, hm, hmt⟩
    · refine ⟨m, ?_, hmt⟩
      rw [e, List.mem_filter]
      refine ⟨hm, ?_⟩
      have hne : m ≠ -v := by
        intro e2
        by_cases h0 : v = 0
        · apply hvb; rw [h0] at e2; simp at e2; rw [h0, ← e2]; exact hm
        · rw [e2, lit_true_neg τ h0, hv] at hmt
          simp at hmt
      simpa using hne
  refine ⟨h1, ?_⟩
  have h2 := satisfies_no_empty h1
  unfold propagate_var_single_value at h2 ⊢
  simp only at h2 ⊢
  cases hb : (strip_negation v (c.clauses.filter (fun cl => !(decide (v ∈ cl))))).2
  · simp
  · exact absurd rfl (h2 [] (strip_negation_true v _ hb))

theorem round_satisfies {τ : Nat → Bool} : ∀ (vs : List Int) (c : CNF),
    satisfies τ c.clauses → (∀ v ∈ vs, lit_true τ v = true) →
    satisfies τ (propagate_var_values vs c).clauses ∧
      (propagate_var_values vs c).empty = c.empty
  | [], c, hs, _ => ⟨hs, rfl⟩
  | v :: vs, c, hs, hv => by
    obtain ⟨h1, h2⟩ := propagate_satisfies hs (hv v (by simp))
    unfold propagate_var_values
    simp only
    split
    · exact ⟨h1, h2⟩
    · obtain ⟨h3, h4⟩ := round_satisfies vs _ h1 (fun w hw => hv w (by simp [hw]))
      exact ⟨h3, h4.trans h2⟩

theorem lit_true_set_true (τ : Nat → Bool) (l : Int) :
    lit_true (set_true τ l) l = true := by
  unfold lit_true set_true
  by_cases hp : 0 < l
  · simp [hp]
  · simp [hp]

/-- Making a literal true whose negation does not occur keeps the formula true. -/
theorem satisfies_set_true {τ : Nat → Bool} {l : Int} {cls : List (List Int)}
    (hn : l = 0 ∨ ¬ occurs (-l) cls) (hs : satisfies τ cls) :
    satisfies (set_true τ l) cls := by
  intro a ha
  obtain ⟨m, hm, hmt⟩ := hs a ha
  by_cases hab : m.natAbs = l.natAbs
  · rcases natAbs_eq_cases hab with e | e
    · exact ⟨m, hm, by rw [e]; exact lit_true_set_true τ l⟩
    · rcases hn with hn | hn
      · refine ⟨m, hm, ?_⟩
        have : m = l := by omega
        rw [this]; exact lit_true_set_true τ l
      · exact absurd ⟨a, ha, e ▸ hm⟩ hn
  · refine ⟨m, hm, ?_⟩
    unfold lit_true set_true at *
    rw [Function.update_noteq hab]
    exact hmt

theorem round_satisfiable_pure : ∀ (vs : List Int) (c : CNF),
    (∀ v ∈ vs, v = 0 ∨ ¬ occurs (-v) c.clauses) → satisfiable c.clauses →
    satisfiable (propagate_var_values vs c).clauses ∧
      (propagate_var_values vs c).empty = c.empty
  | [], c, _, hs => ⟨hs, rfl⟩
  | v :: vs, c, hv, ⟨τ, hs⟩ => by
    have hvn := hv v (by simp)
    obtain ⟨h1, h2⟩ := propagate_satisfies (satisfies_set_true hvn hs)
      (lit_true_set_true τ v)
    unfold propagate_var_values
    simp only
    split
    · exact ⟨⟨_, h1⟩, h2⟩
    · have hsub : ∀ a ∈ (propagate_var_single_value v c).clauses,
          ∃ b ∈ c.clauses, a ⊆ b := by
        intro a ha
        obtain ⟨b, hb, _, hst⟩ := propagate_mem ha
        exact ⟨b, hb, stripped_subset hst⟩
      obtain ⟨h3, h4⟩ := round_satisfiable_pure vs (propagate_var_single_value v c)
        (fun w hw => (hv w (by simp [hw])).imp id
          (fun hn ho => hn (occurs_of_sub hsub ho))) ⟨_, h1⟩
      exact ⟨h3, h4.trans h2⟩

/-! ## The two loops -/

theorem abs_nodup_of_no_complement {l : List Int} (hn : l.Nodup)
    (hc : ∀ a ∈ l, ∀ b ∈ l, a = -b → a = b) : abs_nodup l := by
  unfold abs_nodup
  apply List.Nodup.map_on _ hn
  intro a ha b hb hab
  rcases natAbs_eq_cases hab with e | e
  · exact e
  · exact hc a ha b hb e

theorem unit_true {τ : Nat → Bool} {c : CNF} (hs : satisfies τ c.clauses) {u : Int}
    (hu : u ∈ find_unit_clauses c) : lit_true τ u = true := by
  obtain ⟨l, hl, ht⟩ := hs [u] (mem_find_unit_clauses.1 hu)
  rw [List.mem_singleton] at hl
  rw [← hl]; exact ht

theorem unit_occurs {c : CNF} {u : Int} (hu : u ∈ find_unit_clauses c) :
    occurs u c.clauses :=
  ⟨[u], mem_find_unit_clauses.1 hu, by simp⟩

theorem loopPost_step {fix : CNF → Prop} {c c1 : CNF} {acc vs : List Int}
    {r : LoopResult}
    (hprog : Progress c.clauses vs c1.clauses) (hsize : size c1 ≤ size c)
    (hsat : satisfiable c.clauses → satisfiable c1.clauses)
    (hne : no_empty_clause c1.clauses)
    (h : LoopPost fix c1 (acc ++ vs) r) : LoopPost fix c acc r := by
  cases r with
  | timeout => exact h
  | failed acc1 =>
    refine ⟨(List.prefix_append acc vs).trans h.1, ?_⟩
    intro hz hs
    exact h.2 (lits_nonzero_of_sub hprog.reduces.sub hz) (hsat hs)
  | broke c2 acc2 =>
    obtain ⟨h1, ⟨s, hs, hp⟩, h3, h4, h5, h6⟩ := h
    refine ⟨h1, ⟨vs ++ s, by rw [hs, List.append_assoc], progress_trans hprog hp⟩,
      le_trans h3 hsize, fun x => h4 (hsat x), fun _ => h5 hne, h6⟩

theorem unit_loop_spec : ∀ (fuel : Nat) (c : CNF) (acc : List Int),
    c.empty = false → size c < fuel →
    LoopPost (fun c1 => find_unit_clauses c1 = []) c acc (unit_loop fuel c acc)
  | 0, _, _, _, h => absurd h (Nat.not_lt_zero _)
  | fuel + 1, c, acc, he, h => by
    unfold unit_loop
    simp only
    by_cases hu : (find_unit_clauses c).length = 0
    · rw [if_pos hu]
      exact ⟨he, ⟨[], by simp, progress_refl _⟩, le_refl _, id, id,
        List.length_eq_zero.1 hu⟩
    · rw [if_neg hu]
      by_cases hc : (find_unit_clauses c).length > 1 ∧
          (find_unit_clauses c).any (fun v => set_find (-v) (find_unit_clauses c)) = true
      · rw [if_pos hc]
        refine ⟨List.prefix_refl _, ?_⟩
        rintro hz ⟨τ, hs⟩
        obtain ⟨v, hv, hv2⟩ := List.any_eq_true.1 hc.2
        have h1 := unit_true hs hv
        have h2 := unit_true hs (set_find_iff.1 hv2)
        have hv0 : v ≠ 0 := hz [v] (mem_find_unit_clauses.1 hv) v (by simp)
        rw [lit_true_neg τ hv0, h1] at h2
        simp at h2
      · rw [if_neg hc]
        by_cases hemp : has_empty_clause (propagate_var_values (find_unit_clauses c) c) = true
        · rw [if_pos hemp]
          refine ⟨List.prefix_append _ _, ?_⟩
          rintro _ ⟨τ, hs⟩
          have := (round_satisfies (find_unit_clauses c) c hs
            (fun v hv => unit_true hs hv)).2
          unfold has_empty_clause at hemp
          rw [this, he] at hemp
          simp at hemp
        · rw [if_neg hemp]
          have hemp2 : (propagate_var_values (find_unit_clauses c) c).empty = false := by
            unfold has_empty_clause at hemp; simpa using hemp
          have hne : find_unit_clauses c ≠ [] := fun e => hu (by rw [e]; rfl)
          have hlt : size (propagate_var_values (find_unit_clauses c) c) < size c := by
            match hm : find_unit_clauses c with
            | [] => exact absurd hm hne
            | v :: vs =>
              exact round_size_lt (unit_occurs (by rw [hm]; simp))
          have hnd : abs_nodup (find_unit_clauses c) := by
            apply abs_nodup_of_no_complement (nodup_find_unit_clauses c)
            intro a ha b hb hab
            by_cases hl : (find_unit_clauses c).length > 1
            · exfalso
              apply hc
              refine ⟨hl, List.any_eq_true.2 ⟨b, hb, set_find_iff.2 ?_⟩⟩
              rw [← hab]; exact ha
            · match hm : find_unit_clauses c with
              | [] => rw [hm] at ha; simp at ha
              | [x] =>
                rw [hm] at ha hb
                simp at ha hb
                rw [ha, hb]
              | x :: y :: r => rw [hm] at hl; simp at hl
          apply @loopPost_step _ _ _ _ (find_unit_clauses c) _ _ (le_of_lt hlt) _
            (round_no_empty_clause _ _ hne hemp2)
            (unit_loop_spec fuel _ _ hemp2 (by omega))
          · exact ⟨reduces_round _ _ hemp2, fun l hl => Or.inl (unit_occurs hl), hnd⟩
          · rintro ⟨τ, hs⟩
            exact ⟨τ, (round_satisfies (find_unit_clauses c) c hs
              (fun v hv => unit_true hs hv)).1⟩

theorem pure_loop_spec : ∀ (fuel : Nat) (c : CNF) (acc : List Int),
    c.empty = false → size c < fuel →
    LoopPost (fun c1 => find_pure_literals c1 = []) c acc (pure_loop fuel c acc)
  | 0, _, _, _, h => absurd h (Nat.not_lt_zero _)
  | fuel + 1, c, acc, he, h => by
    unfold pure_loop
    simp only
    by_cases hu : (find_pure_literals c).length = 0
    · rw [if_pos hu]
      exact ⟨he, ⟨[], by simp, progress_refl _⟩, le_refl _, id, id,
        List.length_eq_zero.1 hu⟩
    · rw [if_neg hu]
      have hpure : ∀ v ∈ find_pure_literals c, v = 0 ∨ ¬ occurs (-v) c.clauses :=
        fun v hv => (mem_find_pure_literals.1 hv).2
      by_cases hemp : has_empty_clause (propagate_var_values (find_pure_literals c) c) = true
      · rw [if_pos hemp]
        refine ⟨List.prefix_append _ _, ?_⟩
        intro _ hs
        have := (round_satisfiable_pure (find_pure_literals c) c hpure hs).2
        unfold has_empty_clause at hemp
        rw [this, he] at hemp
        simp at hemp
      · rw [if_neg hemp]
        have hemp2 : (propagate_var_values (find_pure_literals c) c).empty = false := by
          unfold has_empty_clause at hemp; simpa using hemp
        have hne : find_pure_literals c ≠ [] := fun e => hu (by rw [e]; rfl)
        have hlt : size (propagate_var_values (find_pure_literals c) c) < size c := by
          match hm : find_pure_literals c with
          | [] => exact absurd hm hne
          | v :: vs =>
            exact round_size_lt (mem_find_pure_literals.1 (by rw [hm]; simp)).1
        have hnd : abs_nodup (find_pure_literals c) := by
          apply abs_nodup_of_no_complement (nodup_find_pure_literals c)
          intro a ha b hb hab
          have h1 := (mem_find_pure_literals.1 ha).1
          rcases (mem_find_pure_literals.1 hb).2 with e | e
          · rw [hab, e]; rfl
          · exfalso; apply e; rw [← hab]; exact h1
        apply @loopPost_step _ _ _ _ (find_pure_literals c) _ _ (le_of_lt hlt) _
          (round_no_empty_clause _ _ hne hemp2)
          (pure_loop_spec fuel _ _ hemp2 (by omega))
        · exact ⟨reduces_round _ _ hemp2,
            fun l hl => Or.inl (mem_find_pure_literals.1 hl).1, hnd⟩
        · intro hs
          exact (round_satisfiable_pure (find_pure_literals c) c hpure hs).1

/-! ## The search -/

theorem select_none {c : CNF} (hne : c.clauses ≠ [])
    (h : select_branching_literal c = none) : ¬ no_empty_clause c.clauses := by
  unfold select_branching_literal at h
  match hm : c.clauses with
  | [] => exact absurd hm hne
  | cl :: cs =>
    rw [hm] at h
    simp only [List.head?_eq_none_iff] at h
    intro hn
    exact hn cl (by simp) h

theorem select_some {c : CNF} {v : Int} (h : select_branching_literal c = some v) :
    ∃ r cs, c.clauses = (v :: r) :: cs := by
  unfold select_branching_literal at h
  match hm : c.clauses with
  | [] => rw [hm] at h; simp at h
  | [] :: cs => rw [hm] at h; simp at h
  | (x :: r) :: cs =>
    rw [hm] at h
    simp at h
    exact ⟨r, cs, by rw [h]⟩

theorem progress_single {v : Int} {c : CNF}
    (h : (propagate_var_single_value v c).empty = false) (hv : var_occurs v c.clauses) :
    Progress c.clauses [v] (propagate_var_single_value v c).clauses :=
  ⟨reduces_single h, by simpa using hv, by simp [abs_nodup]⟩

/-- The branch of `solve_helper` on one value of the branching literal, seen from the
formula `c` that the call was entered with. -/
theorem solvePost_branch {c c2 : CNF} {acc s : List Int} {w : Int} {r : SolveResult}
    (hp : Progress c.clauses s c2.clauses) (he : c.empty = false)
    (hw : var_occurs w c2.clauses)
    (h : SolvePost (propagate_var_single_value w c2) ((acc ++ s) ++ [w]) r) :
    BranchPost c c2 acc (acc ++ s) w r := by
  cases r with
  | timeout => exact h
  | fault => exact h.2 (propagate_clean h.1).2.2.1
  | done b acc1 =>
    cases b with
    | true =>
      obtain ⟨h1, s3, hs3, hp3⟩ := h
      refine ⟨he, s ++ ([w] ++ s3), ?_, progress_trans hp (progress_trans (progress_single h1 hw) hp3)⟩
      rw [hs3]; simp
    | false =>
      obtain ⟨h1, h2⟩ := h
      have hpre : (acc ++ s) <+: acc1 := (List.prefix_append _ _).trans h1
      refine ⟨hpre, (List.prefix_iff_eq_take.1 hpre).symm, ?_⟩
      intro hz τ hs hw2 he2
      obtain ⟨h3, h4⟩ := propagate_satisfies hs hw2
      refine h2 (lits_nonzero_of_sub ?_ hz) (h4.trans he2) ⟨τ, h3⟩
      intro a ha
      obtain ⟨b, hb, _, hst⟩ := propagate_mem ha
      exact ⟨b, hb, stripped_subset hst⟩

theorem solve_helper_spec : ∀ (fuel : Nat) (c : CNF) (acc : List Int),
    size c < fuel → SolvePost c acc (solve_helper fuel c acc)
  | 0, _, _, h => absurd h (Nat.not_lt_zero _)
  | fuel + 1, c, acc, h => by
    rw [solve_helper]
    by_cases he : has_empty_clause c = true
    · rw [if_pos he]
      refine ⟨List.prefix_refl _, fun _ e => ?_⟩
      unfold has_empty_clause at he
      rw [e] at he; simp at he
    · rw [if_neg he]
      have he2 : c.empty = false := by
        unfold has_empty_clause at he; simpa using he
      have hU := unit_loop_spec (fuel + 1) c acc he2 h
      generalize unit_loop (fuel + 1) c acc = ru at hU ⊢
      cases ru with
      | timeout => exact hU
      | failed acc1 => exact ⟨hU.1, fun hz _ => hU.2 hz⟩
      | broke c1 acc1 =>
        obtain ⟨h1, ⟨s1, hs1, hp1⟩, hsz1, hsat1, hne1, _⟩ := hU
        have hP := pure_loop_spec (fuel + 1) c1 acc1 h1 (by omega)
        simp only
        generalize pure_loop (fuel + 1) c1 acc1 = rp at hP ⊢
        cases rp with
        | timeout => exact hP
        | failed acc2 =>
          refine ⟨?_, fun hz _ hs => hP.2 (lits_nonzero_of_sub hp1.reduces.sub hz) (hsat1 hs)⟩
          rw [hs1] at hP
          exact (List.prefix_append _ _).trans hP.1
        | broke c2 acc2 =>
          obtain ⟨h2, ⟨s2, hs2, hp2⟩, hsz2, hsat2, hne2, _⟩ := hP
          have hp : Progress c.clauses (s1 ++ s2) c2.clauses := progress_trans hp1 hp2
          have hacc : acc2 = acc ++ (s1 ++ s2) := by rw [hs2, hs1, List.append_assoc]
          simp only
          by_cases hce : is_cnf_empty c2 = true
          · rw [if_pos hce]
            have hnil : c2.clauses = [] := by
              unfold is_cnf_empty at hce
              exact List.length_eq_zero.1 (by simpa using hce)
            exact ⟨he2, s1 ++ s2, hacc, hnil ▸ hp⟩
          · rw [if_neg hce]
            have hnn : c2.clauses ≠ [] := by
              intro e; apply hce; unfold is_cnf_empty; rw [e]; rfl
            cases hsel : select_branching_literal c2 with
            | none =>
              exact ⟨he2, fun hn => select_none hnn hsel (hne2 (hne1 hn))⟩
            | some v =>
              obtain ⟨r, cs, hcl⟩ := select_some hsel
              have hocc : occurs v c2.clauses := ⟨v :: r, by rw [hcl]; simp, by simp⟩
              have hz2 : lits_nonzero c.clauses → lits_nonzero c2.clauses :=
                lits_nonzero_of_sub hp.reduces.sub
              have h3 := solve_helper_spec fuel (propagate_var_single_value v c2)
                (acc2 ++ [v]) (by have := propagate_size_lt hocc; omega)
              rw [hacc] at h3 ⊢
              have hb3 := solvePost_branch hp he2 (Or.inl hocc) h3
              simp only
              generalize solve_helper fuel (propagate_var_single_value v c2)
                (acc ++ (s1 ++ s2) ++ [v]) = r3 at hb3 ⊢
              cases r3 with
              | timeout => exact hb3
              | fault => exact absurd hb3 id
              | done b acc3 =>
                cases b with
                | true => exact hb3
                | false =>
                  obtain ⟨hpre3, htake, hun3⟩ := hb3
                  simp only
                  rw [htake]
                  have h4 := solve_helper_spec fuel (propagate_var_single_value (-v) c2)
                    (acc ++ (s1 ++ s2) ++ [-v])
                    (by have := propagate_neg_size_lt (c := c2) hcl; omega)
                  have hb4 := solvePost_branch hp he2
                    (Or.inr (by simpa using hocc)) h4
                  generalize solve_helper fuel (propagate_var_single_value (-v) c2)
                    (acc ++ (s1 ++ s2) ++ [-v]) = r4 at hb4 ⊢
                  cases r4 with
                  | timeout => exact hb4
                  | fault => exact absurd hb4 id
                  | done b acc4 =>
                    cases b with
                    | true => exact hb4
                    | false =>
                      obtain ⟨hpre4, _, hun4⟩ := hb4
                      refine ⟨(List.prefix_append _ _).trans hpre4, ?_⟩
                      intro hz _ hs
                      obtain ⟨τ, hτ⟩ := hsat2 (hsat1 hs)
                      have hv0 : v ≠ 0 := hz2 hz (v :: r) (by rw [hcl]; simp) v (by simp)
                      cases hv : lit_true τ v with
                      | true => exact hun3 (hz2 hz) τ hτ hv h2
                      | false =>
                        refine hun4 (hz2 hz) τ hτ ?_ h2
                        rw [lit_true_neg τ hv0, hv]; rfl

/-! ## Completion -/

theorem getElem?_length_append (pre : List Int) (x : Int) (xs : List Int) :
    (pre ++ x :: xs)[pre.length]? = some x := by
  rw [List.getElem?_append_right (le_refl _)]
  simp

theorem push_missing_eq : ∀ (n : Nat) (current : Int) (acc : List Int),
    push_missing n current acc =
      (current + n, acc ++ (List.range n).map (fun (k : Nat) => current + (k : Int)))
  | 0, current, acc => by simp [push_missing]
  | n + 1, current, acc => by
    rw [push_missing, push_missing_eq n, List.range_succ_eq_map]
    simp only [List.map_cons, List.map_map, List.append_assoc, List.singleton_append,
      Nat.cast_zero, add_zero, Nat.cast_add, Nat.cast_one]
    refine Prod.ext (by simp; ring) ?_
    simp only
    congr 2
    apply List.map_congr_left
    intro k _
    simp only [Function.comp, Nat.succ_eq_add_one, Nat.cast_add, Nat.cast_one]
    ring

/-- Past the elements it started with, the loop only steps over what it pushed. -/
theorem fill_loop_tail : ∀ (pushed pre : List Int) (current : Int) (fuel : Nat),
    (∀ p ∈ pushed, |p| ≤ current) → pushed.length < fuel →
    fill_loop fuel pre.length current (pre ++ pushed) = some (pre ++ pushed)
  | [], pre, current, fuel + 1, _, _ => by
    simp [fill_loop]
  | p :: ps, pre, current, fuel + 1, hp, hf => by
    rw [fill_loop]
    rw [getElem?_length_append]
    simp only
    have hn : (|p| - current).toNat = 0 := by
      have := hp p (by simp)
      omega
    rw [hn, push_missing_eq]
    simp only [List.range_zero, List.map_nil, List.append_nil, Nat.cast_zero, add_zero]
    have := fill_loop_tail ps (pre ++ [p]) (current + 1) fuel
      (fun q hq => by have := hp q (by simp [hq]); omega)
      (by simp at hf; omega)
    simpa using this

theorem gaps_length_le : ∀ (rest : List Int) (current : Int), 0 ≤ current →
    (gaps current rest).length ≤ (rest.map Int.natAbs).sum
  | [], _, _ => by simp [gaps]
  | x :: xs, current, h => by
    have ih := gaps_length_le xs (|x| + 1) (by positivity)
    simp only [gaps, List.length_append, List.length_map, List.length_range, List.map_cons,
      List.sum_cons]
    have : (|x| - current).toNat ≤ x.natAbs := by
      rw [Int.abs_eq_natAbs]; omega
    omega

/-- The completion loop on a vector in strictly increasing order of magnitude. -/
theorem fill_loop_sorted : ∀ (rest pre pushed : List Int) (current : Int) (fuel : Nat),
    1 ≤ current → rest.Pairwise (fun a b => |a| < |b|) → (∀ x ∈ rest, current ≤ |x|) →
    (∀ p ∈ pushed, |p| < current) →
    rest.length + pushed.length + (gaps current rest).length < fuel →
    fill_loop fuel pre.length current (pre ++ rest ++ pushed) =
      some (pre ++ rest ++ pushed ++ gaps current rest)
  | [], pre, pushed, current, fuel, _, _, _, hp, hf => by
    simp only [gaps, List.append_nil]
    exact fill_loop_tail pushed pre current fuel (fun p h => le_of_lt (hp p h))
      (by simp at hf; omega)
  | x :: xs, pre, pushed, current, 0, _, _, _, _, hf => absurd hf (Nat.not_lt_zero _)
  | x :: xs, pre, pushed, current, fuel + 1, hc, hs, hx, hp, hf => by
    rw [fill_loop]
    have hget : (pre ++ x :: xs ++ pushed)[pre.length]? = some x := by
      rw [List.append_assoc]; exact getElem?_length_append pre x (xs ++ pushed)
    rw [hget]
    simp only
    rw [push_missing_eq]
    simp only
    have hcx := hx x (by simp)
    have hn : current + ((|x| - current).toNat : Int) = |x| := by omega
    rw [hn]
    have hs2 := List.pairwise_cons.1 hs
    have hnews : ∀ p ∈ (List.range (|x| - current).toNat).map (fun (k : Nat) => current + (k : Int)),
        |p| < |x| + 1 := by
      intro p hp2
      obtain ⟨k, hk, rfl⟩ := List.mem_map.1 hp2
      rw [List.mem_range] at hk
      rw [abs_of_nonneg (by omega)]
      omega
    have := fill_loop_sorted xs (pre ++ [x])
      (pushed ++ (List.range (|x| - current).toNat).map (fun (k : Nat) => current + (k : Int)))
      (|x| + 1) fuel (by omega) hs2.2
      (fun y hy => by have := hs2.1 y hy; omega)
      (fun p hp2 => by
        rcases List.mem_append.1 hp2 with h | h
        · have := hp p h; omega
        · exact hnews p h)
      (by
        simp only [gaps, List.length_cons, List.length_append, List.length_map,
          List.length_range] at hf ⊢
        omega)
    simp only [List.length_append, List.length_singleton, List.append_assoc,
      List.singleton_append, List.cons_append] at this
    simp only [List.append_assoc, List.cons_append, gaps]
    exact this

theorem gaps_mem : ∀ (rest : List Int) (current : Int) (p : Int),
    rest.Pairwise (fun a b => |a| < |b|) → (∀ x ∈ rest, current ≤ |x|) →
    p ∈ gaps current rest → current ≤ p ∧ ∀ x ∈ rest, |x| ≠ p
  | [], _, p, _, _, h => by simp [gaps] at h
  | x :: xs, current, p, hs, hx, h => by
    have hs2 := List.pairwise_cons.1 hs
    have hcx := hx x (by simp)
    simp only [gaps, List.mem_append, List.mem_map, List.mem_range] at h
    rcases h with ⟨k, hk, rfl⟩ | h
    · refine ⟨by omega, ?_⟩
      intro y hy
      rcases List.mem_cons.1 hy with e | e
      · rw [e]; omega
      · have := hs2.1 y e; omega
    · obtain ⟨h1, h2⟩ := gaps_mem xs (|x| + 1) p hs2.2
        (fun y hy => by have := hs2.1 y hy; omega) h
      refine ⟨by omega, ?_⟩
      intro y hy
      rcases List.mem_cons.1 hy with e | e
      · rw [e]; omega
      · exact h2 y e

theorem gaps_pairwise : ∀ (rest : List Int) (current : Int),
    rest.Pairwise (fun a b => |a| < |b|) → (∀ x ∈ rest, current ≤ |x|) →
    (gaps current rest).Pairwise (fun a b => a < b)
  | [], _, _, _ => by simp [gaps]
  | x :: xs, current, hs, hx => by
    have hs2 := List.pairwise_cons.1 hs
    have hcx := hx x (by simp)
    have hx2 : ∀ y ∈ xs, |x| + 1 ≤ |y| := fun y hy => by have := hs2.1 y hy; omega
    simp only [gaps]
    rw [List.pairwise_append]
    refine ⟨?_, gaps_pairwise xs _ hs2.2 hx2, ?_⟩
    · rw [List.pairwise_map]
      exact (List.pairwise_lt_range _).imp (fun h => by omega)
    · intro a ha b hb
      obtain ⟨k, hk, rfl⟩ := List.mem_map.1 ha
      rw [List.mem_range] at hk
      have := (gaps_mem xs _ b hs2.2 hx2 hb).1
      omega

/-! ## From `solve_helper` to `dpll` -/

theorem fill_loop_extends : ∀ (fuel i : Nat) (current : Int) (acc res : List Int),
    fill_loop fuel i current acc = some res → acc <+: res
  | 0, _, _, _, _, h => by simp [fill_loop] at h
  | fuel + 1, i, current, acc, res, h => by
    rw [fill_loop] at h
    cases hg : acc[i]? with
    | none =>
      rw [hg] at h
      simp only [Option.some.injEq] at h
      rw [h]
    | some x =>
      rw [hg] at h
      simp only at h
      have := fill_loop_extends fuel _ _ _ _ h
      rw [push_missing_eq] at this
      exact (List.prefix_append _ _).trans this

theorem dpll_sat_inv {c : CNF} {a : List Int} (h : dpll c = Verdict.sat a) :
    ∃ acc acc2, solve_helper (size c + 1) c [] = SolveResult.done true acc ∧
      fill_loop (fill_fuel (sort_abs acc)) 0 1 (sort_abs acc) = some acc2 ∧
      a = sort_abs acc2 := by
  unfold dpll at h
  cases hs : solve_helper (size c + 1) c [] with
  | timeout => rw [hs] at h; simp at h
  | fault => rw [hs] at h; simp at h
  | done b acc =>
    cases b with
    | false => rw [hs] at h; simp at h
    | true =>
      rw [hs] at h
      simp only at h
      cases hf : fill_loop (fill_fuel (sort_abs acc)) 0 1 (sort_abs acc) with
      | none => rw [hf] at h; simp at h
      | some acc2 =>
        rw [hf] at h
        simp only [Verdict.sat.injEq] at h
        exact ⟨acc, acc2, rfl, hf, h.symm⟩

theorem dpll_unsat_inv {c : CNF} (h : dpll c = Verdict.unsat) :
    ∃ acc, solve_helper (size c + 1) c [] = SolveResult.done false acc := by
  unfold dpll at h
  cases hs : solve_helper (size c + 1) c [] with
  | timeout => rw [hs] at h; simp at h
  | fault => rw [hs] at h; simp at h
  | done b acc =>
    cases b with
    | false => exact ⟨acc, rfl⟩
    | true =>
      rw [hs] at h
      simp only at h
      cases hf : fill_loop (fill_fuel (sort_abs acc)) 0 1 (sort_abs acc) with
      | none => rw [hf] at h; simp at h
      | some acc2 => rw [hf] at h; simp at h

/-- A successful search returns literals on pairwise distinct variables of the formula
that hit every clause. -/
theorem solve_helper_true {c : CNF} {acc : List Int}
    (h : solve_helper (size c + 1) c [] = SolveResult.done true acc) :
    c.empty = false ∧ Progress c.clauses acc [] := by
  have := solve_helper_spec (size c + 1) c [] (Nat.lt_succ_self _)
  rw [h] at this
  obtain ⟨h1, s, hs, hp⟩ := this
  simp only [List.nil_append] at hs
  exact ⟨h1, hs ▸ hp⟩

theorem mem_sort_abs {l : Int} {acc : List Int} : l ∈ sort_abs acc ↔ l ∈ acc :=
  (List.perm_insertionSort _ acc).mem_iff

theorem sort_abs_sorted (acc : List Int) :
    (sort_abs acc).Pairwise (fun a b => |a| ≤ |b|) :=
  @List.sorted_insertionSort Int (fun a b => |a| ≤ |b|) _
    ⟨fun a b => le_total |a| |b|⟩ ⟨fun _ _ _ h1 h2 => le_trans h1 h2⟩ acc

theorem abs_nodup_sort_abs {acc : List Int} (h : abs_nodup acc) :
    abs_nodup (sort_abs acc) := by
  unfold abs_nodup at h ⊢
  exact (((List.perm_insertionSort _ acc).map Int.natAbs).nodup_iff).2 h

theorem sort_abs_strict {acc : List Int} (h : abs_nodup acc) :
    (sort_abs acc).Pairwise (fun a b => |a| < |b|) := by
  have h1 := sort_abs_sorted acc
  have h2 := abs_nodup_sort_abs h
  unfold abs_nodup at h2
  rw [List.Nodup, List.pairwise_map] at h2
  refine (h1.and h2).imp ?_
  intro a b hab
  rcases hab with ⟨h3, h4⟩
  rw [Int.abs_eq_natAbs, Int.abs_eq_natAbs] at h3 ⊢
  omega

/-- The completion of `dpll` on an assignment of nonzero literals on pairwise distinct
variables. -/
theorem completion_spec {acc : List Int} (hn : abs_nodup acc) (hz : ∀ l ∈ acc, l ≠ 0) :
    fill_loop (fill_fuel (sort_abs acc)) 0 1 (sort_abs acc) =
      some (sort_abs acc ++ gaps 1 (sort_abs acc)) ∧
    abs_nodup (sort_abs acc ++ gaps 1 (sort_abs acc)) ∧
    ∀ l ∈ sort_abs acc ++ gaps 1 (sort_abs acc), l ≠ 0 := by
  have hs := sort_abs_strict hn
  have hge : ∀ x ∈ sort_abs acc, (1 : Int) ≤ |x| := by
    intro x hx
    have := hz x (mem_sort_abs.1 hx)
    exact Int.one_le_abs this
  refine ⟨?_, ?_, ?_⟩
  · have := fill_loop_sorted (sort_abs acc) [] [] 1 (fill_fuel (sort_abs acc)) (le_refl _)
      hs hge (by simp) (by
        have := gaps_length_le (sort_abs acc) 1 (by omega)
        unfold fill_fuel
        simp only [List.length_nil, add_zero]
        omega)
    simpa using this
  · unfold abs_nodup
    rw [List.map_append]
    refine List.Nodup.append (abs_nodup_sort_abs hn) ?_ ?_
    · rw [List.Nodup, List.pairwise_map]
      refine (gaps_pairwise _ _ hs hge).imp_of_mem ?_
      intro a b ha hb hab
      have h1 := (gaps_mem _ _ a hs hge ha).1
      have h2 := (gaps_mem _ _ b hs hge hb).1
      omega
    · intro n hn1 hn2
      obtain ⟨x, hx, rfl⟩ := List.mem_map.1 hn1
      obtain ⟨g, hg, hxg⟩ := List.mem_map.1 hn2
      obtain ⟨h1, h2⟩ := gaps_mem _ _ g hs hge hg
      apply h2 x hx
      rw [Int.abs_eq_natAbs]
      omega
  · intro l hl
    rcases List.mem_append.1 hl with h | h
    · exact hz l (mem_sort_abs.1 h)
    · have := (gaps_mem _ _ l hs hge h).1
      omega

theorem progress_nonzero {F F1 : List (List Int)} {s : List Int} (hp : Progress F s F1)
    (hz : lits_nonzero F) : ∀ l ∈ s, l ≠ 0 := by
  intro l hl
  rcases hp.vars l hl with ⟨b, hb, hlb⟩ | ⟨b, hb, hlb⟩
  · exact hz b hb l hlb
  · have := hz b hb (-l) hlb
    omega

/-! ## The first iteration of the unit loop on complementary units -/

theorem unit_loop_complementary {c : CNF} {l : Int} (hl : l ≠ 0) (h1 : [l] ∈ c.clauses)
    (h2 : [-l] ∈ c.clauses) (fuel : Nat) (acc : List Int) :
    unit_loop (fuel + 1) c acc = LoopResult.failed acc := by
  have m1 : l ∈ find_unit_clauses c := mem_find_unit_clauses.2 h1
  have m2 : -l ∈ find_unit_clauses c := mem_find_unit_clauses.2 h2
  have hlen : (find_unit_clauses c).length > 1 := by
    match hm : find_unit_clauses c with
    | [] => rw [hm] at m1; simp at m1
    | [x] =>
      rw [hm] at m1 m2
      simp at m1 m2
      omega
    | x :: y :: r => simp
  rw [unit_loop]
  simp only
  rw [if_neg (by omega), if_pos]
  exact ⟨hlen, List.any_eq_true.2 ⟨l, m1, set_find_iff.2 m2⟩⟩

/-! ## The exact effect of a propagation -/

theorem strip_filter_eq (v : Int) (cl : List Int) :
    cl.filter (fun l => !(l == -v)) = cl.filter (fun l => l ≠ -v) := by
  apply List.filter_congr
  intro x _
  by_cases h : x = -v <;> simp [h]

theorem assign_literal_spec_eq (lit : Int) (cls : List (List Int)) :
    assign_literal_spec lit cls =
      (cls.filter (fun cl => !(decide (lit ∈ cl)))).map
        (fun cl => cl.filter (fun l => !(l == -lit))) := by
  unfold assign_literal_spec
  congr 1
  · funext cl; exact (strip_filter_eq lit cl).symm
  · apply List.filter_congr
    intro x _
    by_cases h : lit ∈ x <;> simp [h]

/-- The stripping loop in closed form: clauses are stripped up to and including the first
one that is left without literals, the others are untouched. -/
theorem strip_negation_eq (v : Int) : ∀ (cs : List (List Int)),
    (strip_negation v cs).1 =
      (cs.takeWhile (fun cl => cl.filter (fun l => l ≠ -v) ≠ [])).map
          (fun cl => cl.filter (fun l => l ≠ -v)) ++
        (cs.dropWhile (fun cl => cl.filter (fun l => l ≠ -v) ≠ [])).modifyHead
          (fun cl => cl.filter (fun l => l ≠ -v))
  | [] => by simp [strip_negation]
  | c :: cs => by
    unfold strip_negation
    simp only
    rw [strip_filter_eq]
    by_cases h : (c.filter (fun l => l ≠ -v)).length = 0
    · rw [if_pos h]
      have h2 : c.filter (fun l => l ≠ -v) = [] := List.length_eq_zero.1 h
      have hd : decide (c.filter (fun l => l ≠ -v) ≠ []) = false := by
        rw [h2]; rfl
      rw [List.takeWhile_cons, List.dropWhile_cons]
      simp only [hd, Bool.false_eq_true, if_false, List.map_nil, List.nil_append,
        List.modifyHead_cons]
    · rw [if_neg h]
      have h2 : c.filter (fun l => l ≠ -v) ≠ [] := fun e => h (by rw [e]; rfl)
      have hd : decide (c.filter (fun l => l ≠ -v) ≠ []) = true := decide_eq_true h2
      rw [List.takeWhile_cons, List.dropWhile_cons]
      simp only [hd, if_true, strip_negation_eq v cs, List.map_cons, List.cons_append]

theorem propagate_no_lit (lit : Int) (c : CNF) :
    ¬ occurs lit (propagate_var_single_value lit c).clauses := by
  rintro ⟨a, ha, hl⟩
  obtain ⟨b, _, hb, hs⟩ := propagate_mem ha
  exact hb (stripped_subset hs hl)

theorem propagate_flag_iff (lit : Int) (c : CNF) :
    (propagate_var_single_value lit c).empty = true ↔
      c.empty = true ∨ [] ∈ (propagate_var_single_value lit c).clauses := by
  constructor
  · intro h
    unfold propagate_var_single_value at h ⊢
    simp only [Bool.or_eq_true] at h ⊢
    rcases h with h | h
    · exact Or.inl h
    · exact Or.inr (strip_negation_true lit _ h)
  · intro h
    by_contra hc
    have hc2 : (propagate_var_single_value lit c).empty = false := by simpa using hc
    obtain ⟨h1, _, h3, _⟩ := propagate_clean hc2
    rcases h with h | h
    · rw [h1] at h; simp at h
    · exact h3 [] h rfl

theorem propagate_values_flag_mono : ∀ (vs : List Int) (c : CNF),
    c.empty = true → (propagate_var_values vs c).empty = true
  | [], _, h => h
  | v :: vs, c, h => by
    have h1 : (propagate_var_single_value v c).empty = true :=
      (propagate_flag_iff v c).2 (Or.inl h)
    unfold propagate_var_values
    simp only
    rw [if_pos h1]
    exact h1

/-! ## The set of pure literals is ascending -/

theorem set_insert_sorted {x : Int} {s : List Int} (h : s.Sorted (fun a b => a ≤ b)) :
    (set_insert x s).Sorted (fun a b => a ≤ b) := by
  unfold set_insert
  split
  · exact h
  · exact h.orderedInsert x s

theorem set_erase_sorted {x : Int} {s : List Int} (h : s.Sorted (fun a b => a ≤ b)) :
    (set_erase x s).Sorted (fun a b => a ≤ b) :=
  List.Pairwise.sublist (List.filter_sublist _) h

theorem pure_step_sorted (st : List Int × List Int) (l : Int)
    (h : st.1.Sorted (fun a b => a ≤ b)) : (pure_step st l).1.Sorted (fun a b => a ≤ b) := by
  unfold pure_step
  split
  · exact h
  · split
    · exact h
    · split
      · exact set_erase_sorted h
      · exact set_insert_sorted h

theorem pure_foldl_sorted : ∀ (ls : List Int) (st : List Int × List Int),
    st.1.Sorted (fun a b => a ≤ b) → (ls.foldl pure_step st).1.Sorted (fun a b => a ≤ b)
  | [], _, h => h
  | l :: ls, st, h => pure_foldl_sorted ls _ (pure_step_sorted st l h)

theorem pure_clauses_sorted : ∀ (cls : List (List Int)) (st : List Int × List Int),
    st.1.Sorted (fun a b => a ≤ b) →
    (cls.foldl (fun st cl => cl.foldl pure_step st) st).1.Sorted (fun a b => a ≤ b)
  | [], _, h => h
  | cl :: cls, st, h => pure_clauses_sorted cls _ (pure_foldl_sorted cl st h)

theorem find_pure_literals_sorted (c : CNF) :
    (find_pure_literals c).Sorted (fun a b => a < b) := by
  have h1 : (find_pure_literals c).Sorted (fun a b => a ≤ b) :=
    pure_clauses_sorted c.clauses ([], []) List.sorted_nil
  have h2 := nodup_find_pure_literals c
  exact (h1.and h2).imp (fun h => lt_of_le_of_ne h.1 h.2)

theorem find_pure_literals_congr {c c1 : CNF}
    (h : ∀ l, occurs l c1.clauses ↔ occurs l c.clauses) :
    find_pure_literals c1 = find_pure_literals c := by
  apply List.eq_of_perm_of_sorted _ (find_pure_literals_sorted c1)
    (find_pure_literals_sorted c)
  rw [List.perm_ext_iff_of_nodup (nodup_find_pure_literals c1) (nodup_find_pure_literals c)]
  intro l
  rw [mem_find_pure_literals, mem_find_pure_literals, h l, h (-l)]

/-! ## Counting clauses and literal occurrences -/

theorem strip_negation_length (v : Int) : ∀ (cs : List (List Int)),
    (strip_negation v cs).1.length = cs.length
  | [] => by simp [strip_negation]
  | c :: cs => by
    unfold strip_negation
    simp only
    split
    · simp
    · simp [strip_negation_length v cs]

theorem strip_negation_literals_le (v : Int) : ∀ (cs : List (List Int)),
    ((strip_negation v cs).1.map List.length).sum ≤ (cs.map List.length).sum
  | [] => by simp [strip_negation]
  | c :: cs => by
    have hf : (c.filter (fun l => !(l == -v))).length ≤ c.length :=
      List.length_filter_le _ _
    have ih := strip_negation_literals_le v cs
    unfold strip_negation
    simp only
    split
    · simp only [List.map_cons, List.sum_cons]; omega
    · simp only [List.map_cons, List.sum_cons]; omega

theorem strip_negation_literals_head (v : Int) (c : List Int) (cs : List (List Int))
    (h : -v ∈ c) :
    ((strip_negation v (c :: cs)).1.map List.length).sum <
      ((c :: cs).map List.length).sum := by
  have hf : (c.filter (fun l => !(l == -v))).length < c.length := by
    apply List.length_filter_lt_length_iff_exists.2
    exact ⟨-v, h, by simp⟩
  have ih := strip_negation_literals_le v cs
  unfold strip_negation
  simp only
  split
  · simp only [List.map_cons, List.sum_cons]; omega
  · simp only [List.map_cons, List.sum_cons]; omega

theorem propagate_clauses_le (v : Int) (c : CNF) :
    num_clauses (propagate_var_single_value v c) ≤ num_clauses c := by
  unfold propagate_var_single_value num_clauses
  simp only [strip_negation_length]
  exact List.length_filter_le _ _

theorem propagate_clauses_lt {v : Int} {c : CNF} (h : occurs v c.clauses) :
    num_clauses (propagate_var_single_value v c) < num_clauses c := by
  obtain ⟨b, hb, hv⟩ := h
  unfold propagate_var_single_value num_clauses
  simp only [strip_negation_length]
  apply List.length_filter_lt_length_iff_exists.2
  exact ⟨b, hb, by simp [hv]⟩

theorem propagate_literals_le (v : Int) (c : CNF) :
    num_literals (propagate_var_single_value v c) ≤ num_literals c := by
  unfold propagate_var_single_value num_literals
  refine le_trans (strip_negation_literals_le v _) ?_
  apply List.Sublist.sum_le_sum
  · exact (List.filter_sublist _).map _
  · intro x _; exact Nat.zero_le _

/-- Assigning the negation of the first literal of the first clause removes a clause or
a literal occurrence. -/
theorem propagate_neg_shrinks {v : Int} {c : CNF} {r : List Int} {cs : List (List Int)}
    (h : c.clauses = (v :: r) :: cs) :
    num_clauses (propagate_var_single_value (-v) c) < num_clauses c ∨
      num_literals (propagate_var_single_value (-v) c) < num_literals c := by
  by_cases ho : occurs (-v) c.clauses
  · exact Or.inl (propagate_clauses_lt ho)
  · right
    have hkeep : c.clauses.filter (fun cl => !(decide (-v ∈ cl))) = c.clauses := by
      rw [List.filter_eq_self]
      intro a ha
      have : -v ∉ a := fun e => ho ⟨a, ha, e⟩
      simp [this]
    unfold propagate_var_single_value num_literals
    simp only [hkeep]
    rw [h]
    apply strip_negation_literals_head
    simp

theorem round_clauses_le : ∀ (vs : List Int) (c : CNF),
    num_clauses (propagate_var_values vs c) ≤ num_clauses c
  | [], c => le_refl _
  | v :: vs, c => by
    unfold propagate_var_values
    simp only
    split
    · exact propagate_clauses_le v c
    · exact le_trans (round_clauses_le vs _) (propagate_clauses_le v c)

theorem round_literals_le : ∀ (vs : List Int) (c : CNF),
    num_literals (propagate_var_values vs c) ≤ num_literals c
  | [], c => le_refl _
  | v :: vs, c => by
    unfold propagate_var_values
    simp only
    split
    · exact propagate_literals_le v c
    · exact le_trans (round_literals_le vs _) (propagate_literals_le v c)

theorem round_clauses_lt {v : Int} {vs : List Int} {c : CNF} (h : occurs v c.clauses) :
    num_clauses (propagate_var_values (v :: vs) c) < num_clauses c := by
  unfold propagate_var_values
  simp only
  split
  · exact propagate_clauses_lt h
  · exact lt_of_le_of_lt (round_clauses_le vs _) (propagate_clauses_lt h)

theorem unit_round_clauses_lt {c : CNF} (h : find_unit_clauses c ≠ []) :
    num_clauses (propagate_var_values (find_unit_clauses c) c) < num_clauses c := by
  match hm : find_unit_clauses c with
  | [] => exact absurd hm h
  | v :: vs => exact round_clauses_lt (unit_occurs (by rw [hm]; simp))

theorem pure_round_clauses_lt {c : CNF} (h : find_pure_literals c ≠ []) :
    num_clauses (propagate_var_values (find_pure_literals c) c) < num_clauses c := by
  match hm : find_pure_literals c with
  | [] => exact absurd hm h
  | v :: vs => exact round_clauses_lt (mem_find_pure_literals.1 (by rw [hm]; simp)).1

/-! ## The loops, whatever the fuel -/

theorem loopBroke_refl (c : CNF) (acc : List Int) : LoopBroke c acc c acc :=
  ⟨id, id, le_refl _, le_refl _, [], by simp, fun t h => by simpa using h⟩

theorem unit_loop_broke : ∀ (fuel : Nat) (c : CNF) (acc : List Int) (c1 : CNF)
    (acc1 : List Int), unit_loop fuel c acc = LoopResult.broke c1 acc1 →
    LoopBroke c acc c1 acc1 ∧ find_unit_clauses c1 = []
  | 0, _, _, _, _, h => by simp [unit_loop] at h
  | fuel + 1, c, acc, c1, acc1, h => by
    unfold unit_loop at h
    simp only at h
    split at h
    · rename_i hu
      simp only [LoopResult.broke.injEq] at h
      obtain ⟨rfl, rfl⟩ := h
      exact ⟨loopBroke_refl _ _, List.length_eq_zero.1 hu⟩
    · rename_i hu
      split at h
      · simp at h
      · split at h
        · simp at h
        · rename_i hemp
          have hemp2 : (propagate_var_values (find_unit_clauses c) c).empty = false := by
            unfold has_empty_clause at hemp; simpa using hemp
          have hne : find_unit_clauses c ≠ [] := fun e => hu (by rw [e]; rfl)
          obtain ⟨ih, hfix⟩ := unit_loop_broke fuel _ _ _ _ h
          refine ⟨⟨fun _ => ih.flag hemp2,
            fun _ => ih.nonempty (round_no_empty_clause _ _ hne hemp2),
            le_trans ih.clauses_le (round_clauses_le _ _),
            le_trans ih.literals_le (round_literals_le _ _), ?_⟩, hfix⟩
          obtain ⟨s, hs, ht⟩ := ih.trail
          refine ⟨find_unit_clauses c ++ s, by rw [hs, List.append_assoc], ?_⟩
          intro t htr
          rw [List.append_assoc]
          exact Trail.units c _ (ht t htr)

theorem pure_loop_broke : ∀ (fuel : Nat) (c : CNF) (acc : List Int) (c1 : CNF)
    (acc1 : List Int), pure_loop fuel c acc = LoopResult.broke c1 acc1 →
    LoopBroke c acc c1 acc1 ∧ find_pure_literals c1 = []
  | 0, _, _, _, _, h => by simp [pure_loop] at h
  | fuel + 1, c, acc, c1, acc1, h => by
    unfold pure_loop at h
    simp only at h
    split at h
    · rename_i hu
      simp only [LoopResult.broke.injEq] at h
      obtain ⟨rfl, rfl⟩ := h
      exact ⟨loopBroke_refl _ _, List.length_eq_zero.1 hu⟩
    · rename_i hu
      split at h
      · simp at h
      · rename_i hemp
        have hemp2 : (propagate_var_values (find_pure_literals c) c).empty = false := by
          unfold has_empty_clause at hemp; simpa using hemp
        have hne : find_pure_literals c ≠ [] := fun e => hu (by rw [e]; rfl)
        obtain ⟨ih, hfix⟩ := pure_loop_broke fuel _ _ _ _ h
        refine ⟨⟨fun _ => ih.flag hemp2,
          fun _ => ih.nonempty (round_no_empty_clause _ _ hne hemp2),
          le_trans ih.clauses_le (round_clauses_le _ _),
          le_trans ih.literals_le (round_literals_le _ _), ?_⟩, hfix⟩
        obtain ⟨s, hs, ht⟩ := ih.trail
        refine ⟨find_pure_literals c ++ s, by rw [hs, List.append_assoc], ?_⟩
        intro t htr
        rw [List.append_assoc]
        exact Trail.pures c _ (ht t htr)

theorem unit_loop_failed : ∀ (fuel : Nat) (c : CNF) (acc acc1 : List Int),
    unit_loop fuel c acc = LoopResult.failed acc1 → acc <+: acc1
  | 0, _, _, _, h => by simp [unit_loop] at h
  | fuel + 1, c, acc, acc1, h => by
    unfold unit_loop at h
    simp only at h
    split at h
    · simp at h
    · split at h
      · simp only [LoopResult.failed.injEq] at h
        rw [h]
      · split at h
        · simp only [LoopResult.failed.injEq] at h
          rw [← h]; exact List.prefix_append _ _
        · exact (List.prefix_append _ _).trans (unit_loop_failed fuel _ _ _ h)

theorem pure_loop_failed : ∀ (fuel : Nat) (c : CNF) (acc acc1 : List Int),
    pure_loop fuel c acc = LoopResult.failed acc1 → acc <+: acc1
  | 0, _, _, _, h => by simp [pure_loop] at h
  | fuel + 1, c, acc, acc1, h => by
    unfold pure_loop at h
    simp only at h
    split at h
    · simp at h
    · split at h
      · simp only [LoopResult.failed.injEq] at h
        rw [← h]; exact List.prefix_append _ _
      · exact (List.prefix_append _ _).trans (pure_loop_failed fuel _ _ _ h)

/-! ## Rounds of pure literals -/

theorem strip_negation_id (v : Int) : ∀ (cs : List (List Int)),
    (∀ cl ∈ cs, -v ∉ cl) → (strip_negation v cs).1 = cs
  | [], _ => by simp [strip_negation]
  | c :: cs, h => by
    have hc : c.filter (fun l => !(l == -v)) = c := by
      rw [List.filter_eq_self]
      intro a ha
      have : a ≠ -v := fun e => h c (by simp) (e ▸ ha)
      simpa using this
    unfold strip_negation
    simp only
    rw [hc]
    split
    · rfl
    · simp only
      rw [strip_negation_id v cs (fun cl hcl => h cl (by simp [hcl]))]

/-- Assigning a literal whose negation does not occur only deletes clauses, and does not
raise the flag when no clause is without literals. -/
theorem propagate_pure {v : Int} {c : CNF} (hp : v = 0 ∨ ¬ occurs (-v) c.clauses) :
    (propagate_var_single_value v c).clauses =
        c.clauses.filter (fun cl => !(decide (v ∈ cl))) ∧
      (no_empty_clause c.clauses → (propagate_var_single_value v c).empty = c.empty) := by
  have hid : ∀ cl ∈ c.clauses.filter (fun cl => !(decide (v ∈ cl))), -v ∉ cl := by
    intro cl hcl hn
    rw [List.mem_filter] at hcl
    rcases hp with hp | hp
    · rw [hp] at hn hcl
      simp at hcl
      exact hcl.2 (by simpa using hn)
    · exact hp ⟨cl, hcl.1, hn⟩
  have h1 : (propagate_var_single_value v c).clauses =
      c.clauses.filter (fun cl => !(decide (v ∈ cl))) := strip_negation_id v _ hid
  refine ⟨h1, ?_⟩
  intro hne
  cases hb : (strip_negation v (c.clauses.filter (fun cl => !(decide (v ∈ cl))))).2
  · unfold propagate_var_single_value
    simp [hb]
  · have := strip_negation_true v _ hb
    rw [strip_negation_id v _ hid] at this
    exact absurd rfl (hne [] (List.mem_filter.1 this).1)

theorem round_pure : ∀ (vs : List Int) (c : CNF),
    (∀ v ∈ vs, v = 0 ∨ ¬ occurs (-v) c.clauses) → no_empty_clause c.clauses →
    c.empty = false →
    (propagate_var_values vs c).clauses =
        c.clauses.filter (fun cl => decide (∀ l ∈ vs, l ∉ cl)) ∧
      (propagate_var_values vs c).empty = false
  | [], c, _, _, he => by
    simp [propagate_var_values, he]
  | v :: vs, c, hp, hne, he => by
    obtain ⟨h1, h2⟩ := propagate_pure (hp v (by simp))
    have he1 : (propagate_var_single_value v c).empty = false := (h2 hne).trans he
    have hsub : ∀ a ∈ (propagate_var_single_value v c).clauses, a ∈ c.clauses := by
      intro a ha
      rw [h1] at ha
      exact (List.mem_filter.1 ha).1
    obtain ⟨h3, h4⟩ := round_pure vs (propagate_var_single_value v c)
      (fun w hw => (hp w (by simp [hw])).imp id
        (fun hn ho => hn (by
          obtain ⟨a, ha, hl⟩ := ho
          exact ⟨a, hsub a ha, hl⟩)))
      (fun a ha => hne a (hsub a ha)) he1
    unfold propagate_var_values
    simp only
    rw [if_neg (by simp [he1])]
    refine ⟨?_, h4⟩
    rw [h3, h1, List.filter_filter]
    apply List.filter_congr
    intro x _
    by_cases hv : v ∈ x <;> simp [hv]

theorem find_pure_literals_pure (c : CNF) :
    ∀ v ∈ find_pure_literals c, v = 0 ∨ ¬ occurs (-v) c.clauses :=
  fun _ hv => (mem_find_pure_literals.1 hv).2

theorem pure_loop_never_fails : ∀ (fuel : Nat) (c : CNF) (acc : List Int),
    no_empty_clause c.clauses → c.empty = false →
    (∀ acc1, pure_loop fuel c acc ≠ LoopResult.failed acc1) ∧
      ∀ c1 acc1, pure_loop fuel c acc = LoopResult.broke c1 acc1 →
        ∀ cl ∈ c1.clauses, cl ∈ c.clauses
  | 0, _, _, _, _ => by simp [pure_loop]
  | fuel + 1, c, acc, hne, he => by
    obtain ⟨h1, h2⟩ := round_pure (find_pure_literals c) c (find_pure_literals_pure c) hne he
    have hsub : ∀ a ∈ (propagate_var_values (find_pure_literals c) c).clauses,
        a ∈ c.clauses := by
      intro a ha
      rw [h1] at ha
      exact (List.mem_filter.1 ha).1
    obtain ⟨ih1, ih2⟩ := pure_loop_never_fails fuel
      (propagate_var_values (find_pure_literals c) c) (acc ++ find_pure_literals c)
      (fun a ha => hne a (hsub a ha)) h2
    unfold pure_loop
    simp only
    split
    · refine ⟨by simp, ?_⟩
      intro c1 acc1 h
      simp only [LoopResult.broke.injEq] at h
      rw [← h.1]
      exact fun cl hcl => hcl
    · have hf : ¬ has_empty_clause (propagate_var_values (find_pure_literals c) c) = true := by
        unfold has_empty_clause; simp [h2]
      rw [if_neg hf]
      exact ⟨ih1, fun c1 acc1 h cl hcl => hsub cl (ih2 c1 acc1 h cl hcl)⟩

/-! ## The search, whatever the fuel -/

/-- The state at a branching point of a call entered on a formula that has its flag up
or no clause without literals. -/
theorem loops_fixpoint {f1 f2 : Nat} {c c1 c2 : CNF} {acc acc1 acc2 : List Int}
    (hinv : no_empty_clause c.clauses) (he : c.empty = false)
    (hu : unit_loop f1 c acc = LoopResult.broke c1 acc1)
    (hp : pure_loop f2 c1 acc1 = LoopResult.broke c2 acc2) :
    c2.empty = false ∧ no_empty_clause c2.clauses ∧ find_unit_clauses c2 = [] ∧
      find_pure_literals c2 = [] := by
  obtain ⟨hb1, hfix1⟩ := unit_loop_broke _ _ _ _ _ hu
  obtain ⟨hb2, hfix2⟩ := pure_loop_broke _ _ _ _ _ hp
  have hne1 := hb1.nonempty hinv
  have he1 := hb1.flag he
  refine ⟨hb2.flag he1, hb2.nonempty hne1, ?_, hfix2⟩
  have hsub := (pure_loop_never_fails f2 c1 acc1 hne1 he1).2 c2 acc2 hp
  apply List.eq_nil_iff_forall_not_mem.2
  intro u hu2
  have : u ∈ find_unit_clauses c1 :=
    mem_find_unit_clauses.2 (hsub _ (mem_find_unit_clauses.1 hu2))
  rw [hfix1] at this
  simp at this

theorem propagate_inv (v : Int) (c : CNF) :
    (propagate_var_single_value v c).empty = false →
      no_empty_clause (propagate_var_single_value v c).clauses :=
  fun h => (propagate_clean h).2.2.1

theorem branch_states_spec : ∀ (fuel : Nat) (c : CNF) (acc : List Int),
    (c.empty = false → no_empty_clause c.clauses) →
    ∀ c2 ∈ branch_states fuel c acc,
      c2.empty = false ∧ no_empty_clause c2.clauses ∧ find_unit_clauses c2 = [] ∧
        find_pure_literals c2 = [] ∧ c2.clauses ≠ []
  | 0, _, _, _, c2, h => by simp [branch_states] at h
  | fuel + 1, c, acc, hinv, c2, h => by
    rw [branch_states] at h
    split at h
    · simp at h
    · rename_i he
      have he2 : c.empty = false := by
        unfold has_empty_clause at he; simpa using he
      split at h
      · simp at h
      · simp at h
      · rename_i c1 acc1 hu
        split at h
        · simp at h
        · simp at h
        · rename_i c3 acc3 hp
          split at h
          · simp at h
          · rename_i hce
            have hfix := loops_fixpoint (hinv he2) he2 hu hp
            rcases List.mem_cons.1 h with h | h
            · rw [h]
              refine ⟨hfix.1, hfix.2.1, hfix.2.2.1, hfix.2.2.2, ?_⟩
              intro e
              apply hce
              unfold is_cnf_empty
              rw [e]; rfl
            · split at h
              · simp at h
              · rename_i v _
                rcases List.mem_append.1 h with h | h
                · exact branch_states_spec fuel _ _ (propagate_inv v c3) c2 h
                · split at h
                  · exact branch_states_spec fuel _ _ (propagate_inv (-v) c3) c2 h
                  · simp at h

/-- A trail only starts on a formula whose flag is down, and every formula along it has
its flag down. -/
theorem trail_flag {c : CNF} {s : List Int} (h : Trail c s) : c.empty = false := by
  induction h with
  | done c he _ => exact he
  | units c s _ ih => exact propagate_values_empty_mono _ _ ih
  | pures c s _ ih => exact propagate_values_empty_mono _ _ ih
  | branch_true c v s _ _ ih => exact (propagate_clean ih).1
  | branch_false c v s _ _ ih => exact (propagate_clean ih).1

theorem solve_helper_trail : ∀ (fuel : Nat) (c : CNF) (acc : List Int) (b : Bool)
    (acc1 : List Int), solve_helper fuel c acc = SolveResult.done b acc1 →
    acc <+: acc1 ∧ (b = true → ∃ s, acc1 = acc ++ s ∧ Trail c s)
  | 0, _, _, _, _, h => by simp [solve_helper] at h
  | fuel + 1, c, acc, b, acc1, h => by
    rw [solve_helper] at h
    split at h
    · simp only [SolveResult.done.injEq] at h
      rw [← h.1, ← h.2]
      exact ⟨List.prefix_refl _, by simp⟩
    · rename_i hflag
      have he : c.empty = false := by
        unfold has_empty_clause at hflag; simpa using hflag
      split at h
      · simp at h
      · rename_i a1 hu
        simp only [SolveResult.done.injEq] at h
        rw [← h.1, ← h.2]
        exact ⟨unit_loop_failed _ _ _ _ hu, by simp⟩
      · rename_i c1 a1 hu
        obtain ⟨hb1, _⟩ := unit_loop_broke _ _ _ _ _ hu
        obtain ⟨s1, hs1, ht1⟩ := hb1.trail
        split at h
        · simp at h
        · rename_i a2 hp
          simp only [SolveResult.done.injEq] at h
          rw [← h.1, ← h.2]
          refine ⟨?_, by simp⟩
          have := pure_loop_failed _ _ _ _ hp
          rw [hs1] at this
          exact (List.prefix_append _ _).trans this
        · rename_i c2 a2 hp
          obtain ⟨hb2, _⟩ := pure_loop_broke _ _ _ _ _ hp
          obtain ⟨s2, hs2, ht2⟩ := hb2.trail
          have ha2 : a2 = acc ++ (s1 ++ s2) := by rw [hs2, hs1, List.append_assoc]
          have hlift : ∀ t, Trail c2 t → Trail c (s1 ++ s2 ++ t) := by
            intro t ht
            rw [List.append_assoc]
            exact ht1 _ (ht2 t ht)
          split at h
          · rename_i hce
            simp only [SolveResult.done.injEq] at h
            rw [← h.1, ← h.2]
            refine ⟨by rw [ha2]; exact List.prefix_append _ _, fun _ => ⟨s1 ++ s2, ha2, ?_⟩⟩
            have := hlift [] (Trail.done c2 (hb2.flag (hb1.flag he)) hce)
            simpa using this
          · simp only at h
            split at h
            · simp at h
            · rename_i v hsel
              split at h
              · simp at h
              · simp at h
              · rename_i a3 h3
                simp only [SolveResult.done.injEq] at h
                rw [← h.1, ← h.2]
                obtain ⟨hpre, htr⟩ := solve_helper_trail fuel _ _ _ _ h3
                refine ⟨?_, fun _ => ?_⟩
                · rw [ha2] at hpre
                  exact (List.prefix_append _ _).trans
                    ((List.prefix_append _ _).trans hpre)
                · obtain ⟨s3, hs3, ht3⟩ := htr rfl
                  refine ⟨s1 ++ s2 ++ (v :: s3), ?_, hlift _ (Trail.branch_true c2 v s3 hsel ht3)⟩
                  rw [hs3, ha2]; simp
              · rename_i a3 h3
                obtain ⟨hpre3, _⟩ := solve_helper_trail fuel _ _ _ _ h3
                have htake : a3.take a2.length = a2 :=
                  (List.prefix_iff_eq_take.1 ((List.prefix_append _ _).trans hpre3)).symm
                rw [htake] at h
                obtain ⟨hpre, htr⟩ := solve_helper_trail fuel _ _ _ _ h
                refine ⟨?_, fun hb => ?_⟩
                · rw [ha2] at hpre
                  exact (List.prefix_append _ _).trans
                    ((List.prefix_append _ _).trans hpre)
                · obtain ⟨s3, hs3, ht3⟩ := htr hb
                  refine ⟨s1 ++ s2 ++ (-v :: s3), ?_,
                    hlift _ (Trail.branch_false c2 v s3 hsel ht3)⟩
                  rw [hs3, ha2]; simp

/-! ## The declared variable count is not consulted -/

theorem propagate_values_set_nvars (n : Int) : ∀ (vs : List Int) (c : CNF),
    propagate_var_values vs (set_nvars n c) = set_nvars n (propagate_var_values vs c)
  | [], _ => rfl
  | v :: vs, c => by
    unfold propagate_var_values
    simp only
    have h1 : propagate_var_single_value v (set_nvars n c) =
        set_nvars n (propagate_var_single_value v c) := rfl
    rw [h1]
    have h2 : (set_nvars n (propagate_var_single_value v c)).empty =
        (propagate_var_single_value v c).empty := rfl
    rw [h2]
    split
    · rfl
    · exact propagate_values_set_nvars n vs _

theorem unit_loop_set_nvars (n : Int) : ∀ (fuel : Nat) (c : CNF) (acc : List Int),
    unit_loop fuel (set_nvars n c) acc = (unit_loop fuel c acc).set_nvars n
  | 0, _, _ => rfl
  | fuel + 1, c, acc => by
    unfold unit_loop
    simp only
    have hu : find_unit_clauses (set_nvars n c) = find_unit_clauses c := rfl
    rw [hu, propagate_values_set_nvars]
    have he : has_empty_clause (set_nvars n (propagate_var_values (find_unit_clauses c) c)) =
        has_empty_clause (propagate_var_values (find_unit_clauses c) c) := rfl
    rw [he]
    split
    · rfl
    · split
      · rfl
      · split
        · rfl
        · exact unit_loop_set_nvars n fuel _ _

theorem pure_loop_set_nvars (n : Int) : ∀ (fuel : Nat) (c : CNF) (acc : List Int),
    pure_loop fuel (set_nvars n c) acc = (pure_loop fuel c acc).set_nvars n
  | 0, _, _ => rfl
  | fuel + 1, c, acc => by
    unfold pure_loop
    simp only
    have hu : find_pure_literals (set_nvars n c) = find_pure_literals c := rfl
    rw [hu, propagate_values_set_nvars]
    have he : has_empty_clause (set_nvars n (propagate_var_values (find_pure_literals c) c)) =
        has_empty_clause (propagate_var_values (find_pure_literals c) c) := rfl
    rw [he]
    split
    · rfl
    · split
      · rfl
      · exact pure_loop_set_nvars n fuel _ _

theorem solve_helper_set_nvars (n : Int) : ∀ (fuel : Nat) (c : CNF) (acc : List Int),
    solve_helper fuel (set_nvars n c) acc = solve_helper fuel c acc
  | 0, _, _ => rfl
  | fuel + 1, c, acc => by
    rw [solve_helper, solve_helper]
    have he : has_empty_clause (set_nvars n c) = has_empty_clause c := rfl
    rw [he, unit_loop_set_nvars]
    split
    · rfl
    · cases unit_loop (fuel + 1) c acc with
      | timeout => rfl
      | failed a1 => rfl
      | broke c1 a1 =>
        simp only [LoopResult.set_nvars]
        rw [pure_loop_set_nvars]
        cases pure_loop (fuel + 1) c1 a1 with
        | timeout => rfl
        | failed a2 => rfl
        | broke c2 a2 =>
          simp only [LoopResult.set_nvars]
          have h1 : is_cnf_empty (set_nvars n c2) = is_cnf_empty c2 := rfl
          have h2 : select_branching_literal (set_nvars n c2) =
              select_branching_literal c2 := rfl
          rw [h1, h2]
          split
          · rfl
          · cases select_branching_literal c2 with
            | none => rfl
            | some v =>
              simp only
              have h3 : ∀ w, propagate_var_single_value w (set_nvars n c2) =
                  set_nvars n (propagate_var_single_value w c2) := fun _ => rfl
              rw [h3, h3, solve_helper_set_nvars n fuel]
              cases solve_helper fuel (propagate_var_single_value v c2) (a2 ++ [v]) with
              | timeout => rfl
              | fault => rfl
              | done b a3 =>
                cases b with
                | true => rfl
                | false => exact solve_helper_set_nvars n fuel _ _

theorem dpll_set_nvars (n : Int) (c : CNF) : dpll (set_nvars n c) = dpll c := by
  unfold dpll
  have hs : size (set_nvars n c) = size c := rfl
  rw [hs, solve_helper_set_nvars]

/-! ## What the completion loop pushes -/

theorem le_max_var : ∀ {acc : List Int} {x : Int}, x ∈ acc → x.natAbs ≤ max_var acc
  | [], _, h => by simp at h
  | y :: ys, x, h => by
    unfold max_var
    simp only [List.map_cons, List.foldr_cons]
    rcases List.mem_cons.1 h with h | h
    · rw [h]; exact le_max_left _ _
    · exact le_trans (le_max_var h) (le_max_right _ _)

theorem max_var_attained : ∀ {acc : List Int}, acc ≠ [] →
    ∃ x ∈ acc, x.natAbs = max_var acc
  | [], h => absurd rfl h
  | [y], _ => ⟨y, by simp, by simp [max_var]⟩
  | y :: z :: zs, _ => by
    obtain ⟨x, hx, hm⟩ := @max_var_attained (z :: zs) (by simp)
    have hcons : max_var (y :: z :: zs) = max y.natAbs (max_var (z :: zs)) := rfl
    rw [hcons]
    rcases le_total y.natAbs (max_var (z :: zs)) with h | h
    · exact ⟨x, by simp [List.mem_cons.1 hx], by rw [max_eq_right h]; exact hm⟩
    · exact ⟨y, by simp, by rw [max_eq_left h]⟩

theorem gaps_mem_iff : ∀ (rest : List Int) (current : Int) (p : Int),
    rest.Pairwise (fun a b => |a| < |b|) → (∀ x ∈ rest, current ≤ |x|) →
    (p ∈ gaps current rest ↔
      current ≤ p ∧ (∃ x ∈ rest, p < |x|) ∧ ∀ x ∈ rest, |x| ≠ p)
  | [], _, p, _, _ => by simp [gaps]
  | x :: xs, current, p, hs, hx => by
    have hs2 := List.pairwise_cons.1 hs
    have hcx := hx x (by simp)
    have hx2 : ∀ y ∈ xs, |x| + 1 ≤ |y| := fun y hy => by have := hs2.1 y hy; omega
    have ih := gaps_mem_iff xs (|x| + 1) p hs2.2 hx2
    simp only [gaps, List.mem_append, List.mem_map, List.mem_range]
    rw [ih]
    constructor
    · rintro (⟨k, hk, rfl⟩ | ⟨h1, ⟨y, hy, hpy⟩, h3⟩)
      · refine ⟨by omega, ⟨x, by simp, by omega⟩, ?_⟩
        intro y hy
        rcases List.mem_cons.1 hy with e | e
        · rw [e]; omega
        · have := hs2.1 y e; omega
      · refine ⟨by omega, ⟨y, by simp [hy], hpy⟩, ?_⟩
        intro z hz
        rcases List.mem_cons.1 hz with e | e
        · rw [e]; omega
        · exact h3 z e
    · rintro ⟨h1, ⟨y, hy, hpy⟩, h3⟩
      by_cases hlt : p < |x|
      · left
        refine ⟨(p - current).toNat, by omega, by omega⟩
      · right
        have hne := h3 x (by simp)
        refine ⟨by omega, ?_, fun z hz => h3 z (by simp [hz])⟩
        rcases List.mem_cons.1 hy with e | e
        · rw [e] at hpy; omega
        · exact ⟨y, e, hpy⟩

/-- The literals of a completed assignment. -/
theorem completion_mem {acc : List Int} (hn : abs_nodup acc) (hz : ∀ l ∈ acc, l ≠ 0)
    (l : Int) :
    l ∈ sort_abs (sort_abs acc ++ gaps 1 (sort_abs acc)) ↔
      l ∈ acc ∨ (1 ≤ l ∧ l ≤ max_var acc ∧ ∀ a ∈ acc, |a| ≠ l) := by
  have hs := sort_abs_strict hn
  have hge : ∀ x ∈ sort_abs acc, (1 : Int) ≤ |x| := by
    intro x hx
    exact Int.one_le_abs (hz x (mem_sort_abs.1 hx))
  rw [mem_sort_abs, List.mem_append, mem_sort_abs, gaps_mem_iff _ _ _ hs hge]
  apply or_congr Iff.rfl
  constructor
  · rintro ⟨h1, ⟨x, hx, hlx⟩, h3⟩
    refine ⟨h1, ?_, fun a ha => h3 a (mem_sort_abs.2 ha)⟩
    have := le_max_var (mem_sort_abs.1 hx)
    rw [Int.abs_eq_natAbs] at hlx
    omega
  · rintro ⟨h1, h2, h3⟩
    refine ⟨h1, ?_, fun a ha => h3 a (mem_sort_abs.1 ha)⟩
    have hne : acc ≠ [] := by
      intro e
      rw [e] at h2
      simp [max_var] at h2
      omega
    obtain ⟨x, hx, hm⟩ := max_var_attained hne
    refine ⟨x, mem_sort_abs.2 hx, ?_⟩
    have := h3 x hx
    rw [Int.abs_eq_natAbs] at this ⊢
    omega

/-! ## More fuel does not change a result -/

theorem unit_loop_mono : ∀ (fuel : Nat) (c : CNF) (acc : List Int),
    unit_loop fuel c acc ≠ LoopResult.timeout →
    unit_loop (fuel + 1) c acc = unit_loop fuel c acc
  | 0, _, _, h => absurd rfl h
  | fuel + 1, c, acc, h => by
    rw [unit_loop] at h ⊢
    conv_rhs => rw [unit_loop]
    simp only at h ⊢
    split
    · rfl
    · rename_i h1
      rw [if_neg h1] at h
      split
      · rfl
      · rename_i h2
        rw [if_neg h2] at h
        split
        · rfl
        · rename_i h3
          rw [if_neg h3] at h
          exact unit_loop_mono fuel _ _ h

theorem pure_loop_mono : ∀ (fuel : Nat) (c : CNF) (acc : List Int),
    pure_loop fuel c acc ≠ LoopResult.timeout →
    pure_loop (fuel + 1) c acc = pure_loop fuel c acc
  | 0, _, _, h => absurd rfl h
  | fuel + 1, c, acc, h => by
    rw [pure_loop] at h ⊢
    conv_rhs => rw [pure_loop]
    simp only at h ⊢
    split
    · rfl
    · rename_i h1
      rw [if_neg h1] at h
      split
      · rfl
      · rename_i h3
        rw [if_neg h3] at h
        exact pure_loop_mono fuel _ _ h

theorem solve_helper_mono : ∀ (fuel : Nat) (c : CNF) (acc : List Int),
    solve_helper fuel c acc ≠ SolveResult.timeout →
    solve_helper (fuel + 1) c acc = solve_helper fuel c acc
  | 0, _, _, h => absurd rfl h
  | fuel + 1, c, acc, h => by
    rw [solve_helper] at h ⊢
    conv_rhs => rw [solve_helper]
    split
    · rfl
    · rename_i h1
      rw [if_neg h1] at h
      have hu : unit_loop (fuel + 1) c acc ≠ LoopResult.timeout := by
        intro e; rw [e] at h; exact h rfl
      rw [unit_loop_mono _ _ _ hu]
      cases hru : unit_loop (fuel + 1) c acc with
      | timeout => exact absurd hru hu
      | failed a1 => rfl
      | broke c1 a1 =>
        rw [hru] at h
        simp only at h ⊢
        have hp : pure_loop (fuel + 1) c1 a1 ≠ LoopResult.timeout := by
          intro e; rw [e] at h; exact h rfl
        rw [pure_loop_mono _ _ _ hp]
        cases hrp : pure_loop (fuel + 1) c1 a1 with
        | timeout => exact absurd hrp hp
        | failed a2 => rfl
        | broke c2 a2 =>
          rw [hrp] at h
          simp only at h ⊢
          split
          · rfl
          · rename_i h2
            rw [if_neg h2] at h
            cases hsel : select_branching_literal c2 with
            | none => rfl
            | some v =>
              rw [hsel] at h
              simp only at h ⊢
              have h3 : solve_helper fuel (propagate_var_single_value v c2) (a2 ++ [v]) ≠
                  SolveResult.timeout := by
                intro e; rw [e] at h; exact h rfl
              rw [solve_helper_mono fuel _ _ h3]
              cases hr3 : solve_helper fuel (propagate_var_single_value v c2) (a2 ++ [v]) with
              | timeout => exact absurd hr3 h3
              | fault => rfl
              | done b a3 =>
                cases b with
                | true => rfl
                | false =>
                  rw [hr3] at h
                  simp only at h ⊢
                  exact solve_helper_mono fuel _ _ h

theorem solve_helper_fuel {c : CNF} (acc : List Int) : ∀ (k : Nat),
    solve_helper (size c + 1 + k) c acc = solve_helper (size c + 1) c acc
  | 0 => rfl
  | k + 1 => by
    have ih := @solve_helper_fuel c acc k
    have hne : solve_helper (size c + 1 + k) c acc ≠ SolveResult.timeout := by
      intro e
      have := solve_helper_spec (size c + 1 + k) c acc (by omega)
      rw [e] at this
      exact this
    rw [← ih]
    exact solve_helper_mono _ _ _ hne

/-! ## Well-formed clause lines -/

/-- A line that holds a `0` is its literals, the sentinel and what follows it. -/
theorem sentinel_split : ∀ {line : List Int}, (0 : Int) ∈ line →
    ∃ rest, line = literals_of_line line ++ 0 :: rest
  | [], h => by simp at h
  | x :: xs, h => by
    by_cases hx : x = 0
    · exact ⟨xs, by simp [literals_of_line, hx]⟩
    · have hxs : (0 : Int) ∈ xs := by
        rcases List.mem_cons.1 h with e | e
        · exact absurd e.symm hx
        · exact e
      obtain ⟨rest, hr⟩ := sentinel_split hxs
      refine ⟨rest, ?_⟩
      have hl : literals_of_line (x :: xs) = x :: literals_of_line xs := by
        simp [literals_of_line, hx]
      rw [hl, List.cons_append, ← hr]

/-- On a line that holds a `0` the reading loop stops at the sentinel: what it returns
does not depend on what follows the sentinel, nor on the equation for a line that runs
out of integers. -/
theorem read_literals_sentinel : ∀ (pre rest used clause : List Int) (flag : Bool),
    (∀ x ∈ pre, x ≠ 0) →
    read_literals (pre ++ 0 :: rest) used clause flag =
      read_literals (pre ++ [0]) used clause flag
  | [], rest, used, clause, flag, _ => by simp [read_literals]
  | x :: pre, rest, used, clause, flag, h => by
    have hx : x ≠ 0 := h x (by simp)
    have ih := fun u c f => read_literals_sentinel pre rest u c f
      (fun y hy => h y (by simp [hy]))
    simp only [List.cons_append]
    rw [read_literals, read_literals]
    rw [if_neg hx, if_neg hx]
    split
    · exact ih _ _ _
    · exact ih _ _ _

theorem filterMap_lines_eq (ls : List (List Int)) :
    ls.filterMap (fun line =>
      if tautological line then none
      else some (first_occurrences (literals_of_line line))) =
    (ls.filter (fun line => ¬ tautological line)).map
      (fun line => first_occurrences (literals_of_line line)) := by
  induction ls with
  | nil => simp
  | cons x xs ih =>
    by_cases hx : tautological x
    · simp [List.filterMap_cons, List.filter_cons, hx, ih]
    · simp [List.filterMap_cons, List.filter_cons, hx, ih]

theorem filter_not_add_filter (p : List Int → Prop) [DecidablePred p] :
    ∀ (ls : List (List Int)),
    (ls.filter (fun line => ¬ p line)).length + (ls.filter (fun line => p line)).length =
      ls.length
  | [] => by simp
  | x :: xs => by
    have ih := filter_not_add_filter p xs
    by_cases hx : p x
    · simp only [List.filter_cons, hx, not_true_eq_false, decide_False, decide_True,
        Bool.false_eq_true, if_false, if_true, List.length_cons]
      omega
    · simp only [List.filter_cons, hx, not_false_eq_true, decide_False, decide_True,
        Bool.false_eq_true, if_false, if_true, List.length_cons]
      omega

/-! ## Properties of the solver -/

/-- C1 (soundness). Whenever `dpll` returns an assignment, every clause of the formula
it was called on, as it stood before the search simplified it, contains a literal that
is a member of the returned assignment. -/
theorem dpll_sound (c : CNF) (a : List Int) (h : dpll c = Verdict.sat a) :
    ∀ cl ∈ c.clauses, ∃ l ∈ cl, l ∈ a := by
  obtain ⟨acc, acc2, hs, hf, ha⟩ := dpll_sat_inv h
  obtain ⟨_, hp⟩ := solve_helper_true hs
  intro cl hcl
  rcases hp.reduces.cover cl hcl with ⟨l, hl, hlc⟩ | ⟨x, hx, _⟩
  · refine ⟨l, hlc, ?_⟩
    rw [ha, mem_sort_abs]
    exact (fill_loop_extends _ _ _ _ _ hf).subset (mem_sort_abs.2 hl)
  · simp at hx

theorem dpll_sound_witness :
    dpll (formula 2 [[1, 2], [-1]]) = Verdict.sat [-1, 2] ∧
      ∀ cl ∈ (formula 2 [[1, 2], [-1]]).clauses, ∃ l ∈ cl, l ∈ [-1, 2] :=
  ⟨by decide, dpll_sound (formula 2 [[1, 2], [-1]]) [-1, 2] (by decide)⟩

/-- C2 (completeness of the UNSAT verdict). On a freshly built formula over nonzero
literals, `dpll` returning no assignment means that no valuation of the variables makes
every clause true, and on every satisfiable formula `dpll` returns an assignment. -/
theorem dpll_complete (nvars : Int) (cls : List (List Int)) (hz : lits_nonzero cls) :
    (dpll (formula nvars cls) = Verdict.unsat → ¬ satisfiable cls) ∧
      (satisfiable cls → ∃ a, dpll (formula nvars cls) = Verdict.sat a) := by
  have hspec := solve_helper_spec (size (formula nvars cls) + 1) (formula nvars cls) []
    (Nat.lt_succ_self _)
  constructor
  · intro h
    obtain ⟨acc, hs⟩ := dpll_unsat_inv h
    rw [hs] at hspec
    exact hspec.2 hz rfl
  · rintro ⟨τ, hτ⟩
    unfold dpll
    cases hs : solve_helper (size (formula nvars cls) + 1) (formula nvars cls) [] with
    | timeout => rw [hs] at hspec; exact absurd hspec id
    | fault =>
      rw [hs] at hspec
      exact absurd (satisfies_no_empty hτ) hspec.2
    | done b acc =>
      rw [hs] at hspec
      cases b with
      | false => exact absurd ⟨τ, hτ⟩ (hspec.2 hz rfl)
      | true =>
        obtain ⟨_, s, hacc, hp⟩ := hspec
        simp only [List.nil_append] at hacc
        subst hacc
        have hc := completion_spec hp.nodup (progress_nonzero hp hz)
        simp only [hc.1]
        exact ⟨_, rfl⟩

theorem dpll_complete_witness :
    lits_nonzero [[1], [-1]] ∧
      ((dpll (formula 2 [[1], [-1]]) = Verdict.unsat → ¬ satisfiable [[1], [-1]]) ∧
        (satisfiable [[1], [-1]] → ∃ a, dpll (formula 2 [[1], [-1]]) = Verdict.sat a)) :=
  ⟨by simp [lits_nonzero], dpll_complete 2 [[1], [-1]] (by simp [lits_nonzero])⟩

/-- C3 (totality of the assignment), evaluated at the input of the claim: with
`nvars = 2` and the clauses `[1,2]`, `[1,-2]` the run prints `v 1 0`; variable 2, which
the search never assigned, is not appended. -/
theorem dpll_totality_failing_input :
    main_run 2 2 [[1, 2, 0], [1, -2, 0]] = Run.solved (Verdict.sat [1]) := by
  decide

/-- C4 (ordered, duplicate-free output). On a formula over nonzero literals, an
assignment returned by `dpll` is strictly increasing in the magnitude of its literals,
so no variable appears twice; in particular it never holds a literal and its negation. -/
theorem dpll_sorted (c : CNF) (hz : lits_nonzero c.clauses) (a : List Int)
    (h : dpll c = Verdict.sat a) :
    a.Pairwise (fun x y => |x| < |y|) ∧ ∀ l ∈ a, -l ∉ a := by
  obtain ⟨acc, acc2, hs, hf, ha⟩ := dpll_sat_inv h
  obtain ⟨_, hp⟩ := solve_helper_true hs
  obtain ⟨h1, h2, h3⟩ := completion_spec hp.nodup (progress_nonzero hp hz)
  rw [h1] at hf
  simp only [Option.some.injEq] at hf
  subst hf
  subst ha
  refine ⟨sort_abs_strict h2, ?_⟩
  intro l hl hnl
  have hnd := abs_nodup_sort_abs h2
  unfold abs_nodup at hnd
  have hinj := List.inj_on_of_nodup_map hnd hl hnl (by rw [Int.natAbs_neg])
  have := h3 l (mem_sort_abs.1 hl)
  omega

theorem dpll_sorted_witness :
    lits_nonzero (formula 3 [[-3, 1], [3, -1], [-1, -3]]).clauses ∧
      dpll (formula 3 [[-3, 1], [3, -1], [-1, -3]]) = Verdict.sat [-1, 2, -3] ∧
      ([-1, 2, -3].Pairwise (fun x y => |x| < |y|) ∧ ∀ l ∈ [-1, 2, -3], -l ∉ [-1, 2, -3]) :=
  ⟨by simp [lits_nonzero, formula], by decide,
    dpll_sorted (formula 3 [[-3, 1], [3, -1], [-1, -3]]) (by simp [lits_nonzero, formula])
      [-1, 2, -3] (by decide)⟩

/-- C5 (an empty clause forces UNSAT), evaluated at the input of the claim: on the file
`p cnf 1 1` / `0` the clause without literals is stored with the flag `empty` down, no
unit clause or pure literal is found, the formula is not empty, and
`select_branching_literal` reads `clauses[0][0]` out of range. -/
theorem dpll_empty_clause_failing_input :
    main_run 1 1 [[0]] = Run.solved Verdict.fault := by
  decide

/-- C6 (tautology dropping). On a well-formed input (at least `nclauses` lines, each line
read holding a `0`), no clause stored by `parse` holds a literal together with its
negation; a line that lists some literal and its negation before the `0` adds no clause
and every other line adds exactly one, so the stored clauses and the tautological lines
together count `nclauses`. -/
theorem parse_drops_tautologies (nvars nclauses : Int) (lines : List (List Int)) (c : CNF)
    (hw : well_formed nclauses lines)
    (h : parse nvars nclauses lines = ParseResult.ok c) :
    (∀ cl ∈ c.clauses, ∀ l ∈ cl, -l ∉ cl) ∧
      c.clauses = (lines.take nclauses.toNat).filterMap (fun line =>
        if tautological line then none else some (read_clause line).1) ∧
      c.clauses.length +
          ((lines.take nclauses.toNat).filter (fun line => tautological line)).length =
        nclauses.toNat := by
  unfold parse at h
  split at h
  · simp at h
  · simp only [ParseResult.ok.injEq] at h
    subst h
    simp only [read_clauses_eq, List.nil_append, read_clause_fst, true_and]
    refine ⟨?_, ?_⟩
    · intro cl hcl l hl hnl
      obtain ⟨line, _, hline⟩ := List.mem_filterMap.1 hcl
      split at hline
      · simp at hline
      · rename_i ht
        simp only [Option.some.injEq] at hline
        subst hline
        exact ht ⟨l, mem_first_occurrences.1 hl, mem_first_occurrences.1 hnl⟩
    · rw [filterMap_lines_eq, List.length_map]
      have hlen : (lines.take nclauses.toNat).length = nclauses.toNat :=
        List.length_take_of_le hw.1
      have hsum := filter_not_add_filter (fun line => tautological line)
        (lines.take nclauses.toNat)
      rw [hlen] at hsum
      exact hsum

theorem parse_drops_tautologies_witness :
    well_formed 2 [[1, -1, 0], [1, 2, 0]] ∧
    parse 2 2 [[1, -1, 0], [1, 2, 0]] = ParseResult.ok (CNF.mk 2 false [[1, 2]]) ∧
    (∀ cl ∈ (CNF.mk 2 false [[1, 2]]).clauses, ∀ l ∈ cl, -l ∉ cl) ∧
      (CNF.mk 2 false [[1, 2]]).clauses =
        (([[1, -1, 0], [1, 2, 0]] : List (List Int)).take (2 : Int).toNat).filterMap
          (fun line => if tautological line then none else some (read_clause line).1) ∧
      (CNF.mk 2 false [[1, 2]]).clauses.length +
          ((([[1, -1, 0], [1, 2, 0]] : List (List Int)).take (2 : Int).toNat).filter
            (fun line => tautological line)).length = (2 : Int).toNat :=
  ⟨by decide, by decide,
    parse_drops_tautologies 2 2 [[1, -1, 0], [1, 2, 0]] (CNF.mk 2 false [[1, 2]])
      (by decide) (by decide)⟩

/-- C7 (duplicate collapsing). On a well-formed input (at least `nclauses` lines, each
line read holding a `0`), every line read is its literals, then the sentinel `0`, then
what follows; the clause that `parse` stores for a line that is not tautological is the
list of the literals before the first `0` with every repeated occurrence removed, first
occurrences kept in order; no stored clause holds a literal twice and `0` is never a
member of a stored clause. -/
theorem parse_collapses_duplicates (nvars nclauses : Int) (lines : List (List Int))
    (c : CNF) (hw : well_formed nclauses lines)
    (h : parse nvars nclauses lines = ParseResult.ok c) :
    (∀ line ∈ lines.take nclauses.toNat,
        ∃ rest, line = literals_of_line line ++ 0 :: rest) ∧
      c.clauses = ((lines.take nclauses.toNat).filter (fun line => ¬ tautological line)).map
        (fun line => first_occurrences (literals_of_line line)) ∧
      ∀ cl ∈ c.clauses, cl.Nodup ∧ (0 : Int) ∉ cl := by
  unfold parse at h
  split at h
  · simp at h
  · simp only [ParseResult.ok.injEq] at h
    subst h
    simp only [read_clauses_eq, List.nil_append]
    rw [filterMap_lines_eq]
    refine ⟨fun line hl => sentinel_split (hw.2 line hl), rfl, ?_⟩
    intro cl hcl
    obtain ⟨line, _, rfl⟩ := List.mem_map.1 hcl
    refine ⟨nodup_first_occurrences _, ?_⟩
    intro h0
    exact literals_of_line_ne_zero (mem_first_occurrences.1 h0) rfl

theorem parse_collapses_duplicates_witness :
    well_formed 1 [[3, -1, 3, 2, -1, 0, 5]] ∧
    parse 3 1 [[3, -1, 3, 2, -1, 0, 5]] = ParseResult.ok (CNF.mk 3 false [[3, -1, 2]]) ∧
    (∀ line ∈ ([[3, -1, 3, 2, -1, 0, 5]] : List (List Int)).take (1 : Int).toNat,
        ∃ rest, line = literals_of_line line ++ 0 :: rest) ∧
    (CNF.mk 3 false [[3, -1, 2]]).clauses =
        ((([[3, -1, 3, 2, -1, 0, 5]] : List (List Int)).take (1 : Int).toNat).filter
          (fun line => ¬ tautological line)).map
          (fun line => first_occurrences (literals_of_line line)) ∧
      ∀ cl ∈ (CNF.mk 3 false [[3, -1, 2]]).clauses, cl.Nodup ∧ (0 : Int) ∉ cl :=
  ⟨by decide, by decide,
    parse_collapses_duplicates 3 1 [[3, -1, 3, 2, -1, 0, 5]] (CNF.mk 3 false [[3, -1, 2]])
      (by decide) (by decide)⟩

/-- C8 (capacity limit). After the header, `parse` ends the run with `exit(1)` exactly
when `nvars` exceeds 1500, whatever the clause lines are; then `main` never reaches the
solver. A header with `nvars` up to 1500 included is never rejected. -/
theorem parse_capacity (nvars nclauses : Int) (lines : List (List Int)) :
    (parse nvars nclauses lines = ParseResult.too_many_vars ↔ 1500 < nvars) ∧
      (main_run nvars nclauses lines = Run.exit_too_many_vars ↔ 1500 < nvars) ∧
      ((∃ c, parse nvars nclauses lines = ParseResult.ok c) ↔ nvars ≤ 1500) := by
  unfold main_run parse MAXVARS
  by_cases h : nvars > 1500
  · have h2 : ¬ nvars ≤ 1500 := by omega
    simp [h, h2]
  · have h2 : nvars ≤ 1500 := by omega
    have h3 : ¬ 1500 < nvars := by omega
    simp [h3, h2]

/-- C9 (complementary unit clauses). A formula that holds the unit clauses `[l]` and
`[-l]` for a nonzero literal `l` makes `dpll` return no assignment. -/
theorem dpll_complementary_units (c : CNF) (l : Int) (hl : l ≠ 0) (h1 : [l] ∈ c.clauses)
    (h2 : [-l] ∈ c.clauses) : dpll c = Verdict.unsat := by
  unfold dpll
  rw [solve_helper]
  by_cases he : has_empty_clause c = true
  · rw [if_pos he]
  · rw [if_neg he, unit_loop_complementary hl h1 h2]

theorem dpll_complementary_units_witness :
    (1 : Int) ≠ 0 ∧ [1] ∈ (formula 2 [[1], [-1]]).clauses ∧
      [-1] ∈ (formula 2 [[1], [-1]]).clauses ∧
      dpll (formula 2 [[1], [-1]]) = Verdict.unsat :=
  ⟨by decide, by decide, by decide,
    dpll_complementary_units (formula 2 [[1], [-1]]) 1 (by decide) (by decide) (by decide)⟩

/-- C10 (zero-clause formula). For every declared variable count, `dpll` on a formula
without clauses returns an assignment, and every literal of the assignment it returns is
positive. -/
theorem dpll_no_clauses (nvars : Int) :
    (∃ a, dpll (formula nvars []) = Verdict.sat a) ∧
      ∀ a, dpll (formula nvars []) = Verdict.sat a → ∀ l ∈ a, 0 < l := by
  have h : dpll (formula nvars []) = Verdict.sat [] := rfl
  refine ⟨⟨[], h⟩, ?_⟩
  intro a ha
  rw [h] at ha
  simp only [Verdict.sat.injEq] at ha
  subst ha
  simp

/-- C11, as the claim states it, refuted: on the clauses `[2]`, `[-2]`, `[-2,3]` the call
`propagate_var_single_value(2)` leaves `[]`, `[-2,3]`, so the clause list is not the
described one and `-2` still occurs. -/
theorem propagate_postcondition_counterexample :
    (propagate_var_single_value 2 (formula 3 [[2], [-2], [-2, 3]])).clauses ≠
        assign_literal_spec 2 [[2], [-2], [-2, 3]] ∧
      occurs (-2) (propagate_var_single_value 2 (formula 3 [[2], [-2], [-2, 3]])).clauses := by
  refine ⟨by decide, [-2, 3], by decide, by decide⟩

/-- C11, amended. After `propagate_var_single_value(lit)` no remaining clause contains
`lit`; the clause list is the original one with every clause containing `lit` deleted and
`-lit` deleted, in order, from each remaining clause up to and including the first one
that is left without literals, the clauses after that one untouched. Whenever no clause
of the result is without literals, the list is the one the specification describes and
no remaining clause contains `-lit`. -/
theorem propagate_postcondition (lit : Int) (c : CNF) :
    ¬ occurs lit (propagate_var_single_value lit c).clauses ∧
      (propagate_var_single_value lit c).clauses =
        ((c.clauses.filter (fun cl => lit ∉ cl)).takeWhile
            (fun cl => cl.filter (fun l => l ≠ -lit) ≠ [])).map
            (fun cl => cl.filter (fun l => l ≠ -lit)) ++
          ((c.clauses.filter (fun cl => lit ∉ cl)).dropWhile
            (fun cl => cl.filter (fun l => l ≠ -lit) ≠ [])).modifyHead
            (fun cl => cl.filter (fun l => l ≠ -lit)) ∧
      (no_empty_clause (propagate_var_single_value lit c).clauses →
        (propagate_var_single_value lit c).clauses = assign_literal_spec lit c.clauses ∧
          ¬ occurs (-lit) (propagate_var_single_value lit c).clauses) := by
  refine ⟨propagate_no_lit lit c, ?_, ?_⟩
  · have hk : c.clauses.filter (fun cl => !(decide (lit ∈ cl))) =
        c.clauses.filter (fun cl => lit ∉ cl) := by
      apply List.filter_congr
      intro x _
      by_cases h : lit ∈ x <;> simp [h]
    show (strip_negation lit (c.clauses.filter (fun cl => !(decide (lit ∈ cl))))).1 = _
    rw [strip_negation_eq, hk]
  · intro hne
    have hflag : (strip_negation lit
        (c.clauses.filter (fun cl => !(decide (lit ∈ cl))))).2 = false := by
      cases hb : (strip_negation lit
        (c.clauses.filter (fun cl => !(decide (lit ∈ cl))))).2
      · rfl
      · exact absurd rfl (hne [] (strip_negation_true lit _ hb))
    have h1 := (strip_negation_false lit _ hflag).1
    have hcl : (propagate_var_single_value lit c).clauses = assign_literal_spec lit c.clauses := by
      rw [assign_literal_spec_eq]
      exact h1
    refine ⟨hcl, ?_⟩
    rintro ⟨a, ha, hl⟩
    rw [hcl] at ha
    unfold assign_literal_spec at ha
    obtain ⟨b, _, rfl⟩ := List.mem_map.1 ha
    have := (List.mem_filter.1 hl).2
    simp at this

theorem propagate_postcondition_witness :
    no_empty_clause (propagate_var_single_value 1 (formula 2 [[1, 2], [-1, 2]])).clauses ∧
      (propagate_var_single_value 1 (formula 2 [[1, 2], [-1, 2]])).clauses =
          assign_literal_spec 1 [[1, 2], [-1, 2]] ∧
        ¬ occurs (-1) (propagate_var_single_value 1 (formula 2 [[1, 2], [-1, 2]])).clauses :=
  ⟨by simp [no_empty_clause, formula, propagate_var_single_value, strip_negation],
    (propagate_postcondition 1 (formula 2 [[1, 2], [-1, 2]])).2.2
      (by simp [no_empty_clause, formula, propagate_var_single_value, strip_negation])⟩

/-- C12 (empty-clause flag). After `propagate_var_single_value(lit)` the flag is up
exactly when it was up before the call or the resulting clause list holds a clause
without literals; a flag that is up stays up, also through `propagate_var_values`. -/
theorem propagate_flag (lit : Int) (c : CNF) :
    (has_empty_clause (propagate_var_single_value lit c) = true ↔
        has_empty_clause c = true ∨ [] ∈ (propagate_var_single_value lit c).clauses) ∧
      (has_empty_clause c = true →
        has_empty_clause (propagate_var_single_value lit c) = true ∧
          ∀ vs, has_empty_clause (propagate_var_values vs c) = true) :=
  ⟨propagate_flag_iff lit c, fun h =>
    ⟨(propagate_flag_iff lit c).2 (Or.inl h), fun vs => propagate_values_flag_mono vs c h⟩⟩

/-- C13 (pure-literal set). On a formula over nonzero literals `find_pure_literals`
returns exactly the literals that occur in some clause and whose negation occurs in
none, listed in ascending order without repetition; the result only depends on which
literals occur, hence not on the order of clauses or of literals within them. -/
theorem find_pure_literals_spec (c : CNF) (hz : lits_nonzero c.clauses) :
    (∀ l, l ∈ find_pure_literals c ↔ occurs l c.clauses ∧ ¬ occurs (-l) c.clauses) ∧
      (find_pure_literals c).Sorted (fun a b => a < b) ∧
      ∀ c1 : CNF, (∀ l, occurs l c1.clauses ↔ occurs l c.clauses) →
        find_pure_literals c1 = find_pure_literals c := by
  refine ⟨?_, find_pure_literals_sorted c, fun c1 h => find_pure_literals_congr h⟩
  intro l
  rw [mem_find_pure_literals]
  constructor
  · rintro ⟨h1, h2⟩
    refine ⟨h1, ?_⟩
    rcases h2 with h2 | h2
    · obtain ⟨cl, hcl, hl⟩ := h1
      exact absurd h2 (hz cl hcl l hl)
    · exact h2
  · rintro ⟨h1, h2⟩
    exact ⟨h1, Or.inr h2⟩

theorem find_pure_literals_spec_witness :
    lits_nonzero (formula 3 [[1, -2], [2, 3], [-2, 1]]).clauses ∧
      ((∀ l, l ∈ find_pure_literals (formula 3 [[1, -2], [2, 3], [-2, 1]]) ↔
          occurs l (formula 3 [[1, -2], [2, 3], [-2, 1]]).clauses ∧
            ¬ occurs (-l) (formula 3 [[1, -2], [2, 3], [-2, 1]]).clauses) ∧
        (find_pure_literals (formula 3 [[1, -2], [2, 3], [-2, 1]])).Sorted (fun a b => a < b) ∧
        ∀ c1 : CNF, (∀ l, occurs l c1.clauses ↔
            occurs l (formula 3 [[1, -2], [2, 3], [-2, 1]]).clauses) →
          find_pure_literals c1 = find_pure_literals (formula 3 [[1, -2], [2, 3], [-2, 1]])) :=
  ⟨by simp [lits_nonzero, formula],
    find_pure_literals_spec (formula 3 [[1, -2], [2, 3], [-2, 1]])
      (by simp [lits_nonzero, formula])⟩

/-- C14 (termination). With fuel above the size of the formula `solve_helper` never runs
out of fuel, and its result does not depend on how much fuel that is. The formula handed
to the recursive call of the true branch has strictly fewer clauses than the formula the
enclosing call was entered on, the one handed to the call of the false branch strictly
fewer clauses or strictly fewer literal occurrences. Each round of the unit-clause loop
and of the pure-literal loop removes a clause. -/
theorem solve_helper_terminates (c : CNF) (acc : List Int) :
    (∀ fuel, size c < fuel → solve_helper fuel c acc ≠ SolveResult.timeout ∧
        solve_helper fuel c acc = solve_helper (size c + 1) c acc) ∧
      (∀ f1 f2 c1 acc1 c2 acc2 v, unit_loop f1 c acc = LoopResult.broke c1 acc1 →
        pure_loop f2 c1 acc1 = LoopResult.broke c2 acc2 →
        select_branching_literal c2 = some v →
        num_clauses (propagate_var_single_value v c2) < num_clauses c ∧
          (num_clauses (propagate_var_single_value (-v) c2) < num_clauses c ∨
            num_literals (propagate_var_single_value (-v) c2) < num_literals c)) ∧
      (find_unit_clauses c ≠ [] →
        num_clauses (propagate_var_values (find_unit_clauses c) c) < num_clauses c) ∧
      (find_pure_literals c ≠ [] →
        num_clauses (propagate_var_values (find_pure_literals c) c) < num_clauses c) := by
  refine ⟨?_, ?_, unit_round_clauses_lt, pure_round_clauses_lt⟩
  · intro fuel hf
    refine ⟨?_, ?_⟩
    · intro h
      have := solve_helper_spec fuel c acc hf
      rw [h] at this
      exact this
    · have hk : fuel = size c + 1 + (fuel - (size c + 1)) := by omega
      rw [hk]
      exact solve_helper_fuel acc _
  · intro f1 f2 c1 acc1 c2 acc2 v hu hp hsel
    obtain ⟨hb1, _⟩ := unit_loop_broke _ _ _ _ _ hu
    obtain ⟨hb2, _⟩ := pure_loop_broke _ _ _ _ _ hp
    obtain ⟨r, cs, hcl⟩ := select_some hsel
    have hocc : occurs v c2.clauses := ⟨v :: r, by rw [hcl]; simp, by simp⟩
    have h1 := propagate_clauses_lt hocc
    have h2 := propagate_neg_shrinks hcl
    have h3 := hb1.clauses_le
    have h4 := hb2.clauses_le
    have h5 := hb1.literals_le
    have h6 := hb2.literals_le
    refine ⟨by omega, ?_⟩
    rcases h2 with h2 | h2
    · left; omega
    · right; omega

/-- C15 (simplification fixpoint before branching). On a formula in which no clause is
without literals, every formula on which `solve_helper` chooses a branching literal has
no unit clause and no pure literal: each of its clauses has at least two literals and
the negation of each literal that occurs in it occurs too. -/
theorem branching_at_fixpoint (c : CNF) (hne : no_empty_clause c.clauses) (fuel : Nat)
    (acc : List Int) :
    ∀ c2 ∈ branch_states fuel c acc,
      find_unit_clauses c2 = [] ∧ find_pure_literals c2 = [] ∧
        (∀ cl ∈ c2.clauses, 2 ≤ cl.length) ∧
        ∀ cl ∈ c2.clauses, ∀ l ∈ cl, occurs (-l) c2.clauses := by
  intro c2 hc2
  obtain ⟨_, h2, h3, h4, _⟩ := branch_states_spec fuel c acc (fun _ => hne) c2 hc2
  refine ⟨h3, h4, ?_, ?_⟩
  · intro cl hcl
    match cl, hcl with
    | [], hcl => exact absurd rfl (h2 [] hcl)
    | [u], hcl =>
      have := mem_find_unit_clauses.2 hcl
      rw [h3] at this
      simp at this
    | x :: y :: r, _ => simp
  · intro cl hcl l hl
    by_contra hn
    have : l ∈ find_pure_literals c2 :=
      mem_find_pure_literals.2 ⟨⟨cl, hcl, hl⟩, Or.inr hn⟩
    rw [h4] at this
    simp at this

theorem branching_at_fixpoint_witness :
    no_empty_clause (formula 2 [[1, 2], [-1, -2], [-1, 2]]).clauses ∧
      ∀ c2 ∈ branch_states 10 (formula 2 [[1, 2], [-1, -2], [-1, 2]]) [],
        find_unit_clauses c2 = [] ∧ find_pure_literals c2 = [] ∧
          (∀ cl ∈ c2.clauses, 2 ≤ cl.length) ∧
          ∀ cl ∈ c2.clauses, ∀ l ∈ cl, occurs (-l) c2.clauses :=
  ⟨by simp [no_empty_clause, formula],
    branching_at_fixpoint (formula 2 [[1, 2], [-1, -2], [-1, 2]])
      (by simp [no_empty_clause, formula]) 10 []⟩

/-- C16 (assignment rollback). With fuel above the size of the formula, the vector that
`solve_helper` leaves on return, success or failure, starts with the vector it was given;
on success what was appended is the trail of one successful path (unit literals, pure
literals and the branching literals as assigned on that path, nothing from a failed
branch) and holds no two literals on the same variable. -/
theorem solve_helper_frame (fuel : Nat) (c : CNF) (acc0 : List Int) (b : Bool)
    (acc1 : List Int) (hf : size c < fuel)
    (h : solve_helper fuel c acc0 = SolveResult.done b acc1) :
    acc0 <+: acc1 ∧ (b = true → ∃ s, acc1 = acc0 ++ s ∧ Trail c s ∧ abs_nodup s) := by
  obtain ⟨h1, h2⟩ := solve_helper_trail fuel c acc0 b acc1 h
  refine ⟨h1, ?_⟩
  intro hb
  subst hb
  obtain ⟨s, hs, ht⟩ := h2 rfl
  have hspec := solve_helper_spec fuel c acc0 hf
  rw [h] at hspec
  obtain ⟨_, s2, hs2, hp⟩ := hspec
  have : s = s2 := List.append_cancel_left (hs.symm.trans hs2)
  exact ⟨s, hs, ht, this ▸ hp.nodup⟩

theorem solve_helper_frame_witness :
    size (formula 2 [[1, 2], [-1, -2], [-1, 2]]) < 10 ∧
      solve_helper 10 (formula 2 [[1, 2], [-1, -2], [-1, 2]]) [7] =
        SolveResult.done true [7, -1, 2] ∧
      ([7] <+: [7, -1, 2] ∧ (true = true → ∃ s, [7, -1, 2] = [7] ++ s ∧
        Trail (formula 2 [[1, 2], [-1, -2], [-1, 2]]) s ∧ abs_nodup s)) :=
  ⟨by decide, by decide,
    solve_helper_frame 10 (formula 2 [[1, 2], [-1, -2], [-1, 2]]) [7] true [7, -1, 2]
      (by decide) (by decide)⟩

/-- C17 (what completion covers). When the search succeeds with the nonzero literals
`acc`, `dpll` returns a list in strictly increasing order of variable id whose members
are the literals of `acc` and the positive literals `k`, `1 ≤ k ≤ m`, on no variable of
`acc`, where `m` is the largest variable id in `acc`; it is empty when `acc` is. The
declared `nvars` is not consulted: replacing it does not change what `dpll` returns. -/
theorem dpll_completion (c : CNF) (acc : List Int)
    (h : solve_helper (size c + 1) c [] = SolveResult.done true acc)
    (h0 : ∀ l ∈ acc, l ≠ 0) :
    ∃ res, dpll c = Verdict.sat res ∧ res.Pairwise (fun x y => |x| < |y|) ∧
      (∀ l, l ∈ res ↔ l ∈ acc ∨ (1 ≤ l ∧ l ≤ max_var acc ∧ ∀ a ∈ acc, |a| ≠ l)) ∧
      (acc = [] → res = []) ∧ ∀ n, dpll (set_nvars n c) = dpll c := by
  obtain ⟨_, hp⟩ := solve_helper_true h
  obtain ⟨h1, h2, _⟩ := completion_spec hp.nodup h0
  refine ⟨sort_abs (sort_abs acc ++ gaps 1 (sort_abs acc)), ?_, sort_abs_strict h2,
    completion_mem hp.nodup h0, ?_, fun n => dpll_set_nvars n c⟩
  · unfold dpll
    rw [h]
    simp only [h1]
  · intro e
    rw [e]
    rfl

theorem dpll_completion_witness :
    solve_helper (size (formula 5 [[-3, 1], [3, -1], [-1, -3]]) + 1)
        (formula 5 [[-3, 1], [3, -1], [-1, -3]]) [] = SolveResult.done true [-3, -1] ∧
      (∀ l ∈ ([-3, -1] : List Int), l ≠ 0) ∧
      ∃ res, dpll (formula 5 [[-3, 1], [3, -1], [-1, -3]]) = Verdict.sat res ∧
        res.Pairwise (fun x y => |x| < |y|) ∧
        (∀ l, l ∈ res ↔ l ∈ ([-3, -1] : List Int) ∨
          (1 ≤ l ∧ l ≤ max_var [-3, -1] ∧ ∀ a ∈ ([-3, -1] : List Int), |a| ≠ l)) ∧
        (([-3, -1] : List Int) = [] → res = []) ∧
        ∀ n, dpll (set_nvars n (formula 5 [[-3, 1], [3, -1], [-1, -3]])) =
          dpll (formula 5 [[-3, 1], [3, -1], [-1, -3]]) :=
  ⟨by decide, by decide,
    dpll_completion (formula 5 [[-3, 1], [3, -1], [-1, -3]]) [-3, -1] (by decide)
      (by decide)⟩

/-- C18 (branching-literal indexing). When no clause is without literals at entry to
`dpll`, every formula on which `solve_helper` evaluates `select_branching_literal` has a
first clause with a first literal, so `dpll` never reads out of range. The invariant
behind it, flag down implies no clause without literals, is kept by
`propagate_var_single_value`. -/
theorem branching_index_safe (c : CNF) (hne : no_empty_clause c.clauses) :
    (∀ fuel acc, ∀ c2 ∈ branch_states fuel c acc,
        ∃ v r cs, c2.clauses = (v :: r) :: cs ∧ select_branching_literal c2 = some v) ∧
      dpll c ≠ Verdict.fault ∧
      ∀ v (c1 : CNF), (has_empty_clause c1 = false → no_empty_clause c1.clauses) →
        has_empty_clause (propagate_var_single_value v c1) = false →
        no_empty_clause (propagate_var_single_value v c1).clauses := by
  refine ⟨?_, ?_, fun v c1 _ h => propagate_inv v c1 h⟩
  · intro fuel acc c2 hc2
    obtain ⟨_, h2, _, _, h5⟩ := branch_states_spec fuel c acc (fun _ => hne) c2 hc2
    match hm : c2.clauses with
    | [] => exact absurd hm h5
    | [] :: cs => exact absurd rfl (h2 [] (by rw [hm]; simp))
    | (v :: r) :: cs =>
      exact ⟨v, r, cs, rfl, by unfold select_branching_literal; rw [hm]; rfl⟩
  · have hspec := solve_helper_spec (size c + 1) c [] (Nat.lt_succ_self _)
    unfold dpll
    cases hs : solve_helper (size c + 1) c [] with
    | timeout => simp
    | fault =>
      rw [hs] at hspec
      exact absurd hne hspec.2
    | done b a =>
      cases b with
      | false => simp
      | true =>
        simp only
        cases fill_loop (fill_fuel (sort_abs a)) 0 1 (sort_abs a) with
        | none => simp
        | some a2 => simp

theorem branching_index_safe_witness :
    no_empty_clause (formula 2 [[1, 2], [-1, -2], [-1, 2]]).clauses ∧
      ((∀ fuel acc, ∀ c2 ∈ branch_states fuel (formula 2 [[1, 2], [-1, -2], [-1, 2]]) acc,
          ∃ v r cs, c2.clauses = (v :: r) :: cs ∧ select_branching_literal c2 = some v) ∧
        dpll (formula 2 [[1, 2], [-1, -2], [-1, 2]]) ≠ Verdict.fault ∧
        ∀ v (c1 : CNF), (has_empty_clause c1 = false → no_empty_clause c1.clauses) →
          has_empty_clause (propagate_var_single_value v c1) = false →
          no_empty_clause (propagate_var_single_value v c1).clauses) :=
  ⟨by simp [no_empty_clause, formula],
    branching_index_safe (formula 2 [[1, 2], [-1, -2], [-1, 2]])
      (by simp [no_empty_clause, formula])⟩

/-- C19 (pure-literal elimination never conflicts). On a formula with no clause without
literals and the flag down, a round `propagate_var_values(find_pure_literals())` deletes
the clauses that hold a pure literal and leaves every other clause as it was, the flag
stays down, and the pure-literal loop never takes its `return false`. -/
theorem pure_round_only_deletes (c : CNF) (hne : no_empty_clause c.clauses)
    (he : has_empty_clause c = false) :
    (propagate_var_values (find_pure_literals c) c).clauses =
        c.clauses.filter (fun cl => ∀ l ∈ find_pure_literals c, l ∉ cl) ∧
      has_empty_clause (propagate_var_values (find_pure_literals c) c) = false ∧
      ∀ fuel acc acc1, pure_loop fuel c acc ≠ LoopResult.failed acc1 := by
  have he2 : c.empty = false := he
  obtain ⟨h1, h2⟩ := round_pure (find_pure_literals c) c (find_pure_literals_pure c) hne he2
  exact ⟨h1, h2, fun fuel acc => (pure_loop_never_fails fuel c acc hne he2).1⟩

theorem pure_round_only_deletes_witness :
    no_empty_clause (formula 3 [[1, -2], [2, 3], [-2, 2]]).clauses ∧
      has_empty_clause (formula 3 [[1, -2], [2, 3], [-2, 2]]) = false ∧
      ((propagate_var_values (find_pure_literals (formula 3 [[1, -2], [2, 3], [-2, 2]]))
            (formula 3 [[1, -2], [2, 3], [-2, 2]])).clauses =
          (formula 3 [[1, -2], [2, 3], [-2, 2]]).clauses.filter
            (fun cl => ∀ l ∈ find_pure_literals (formula 3 [[1, -2], [2, 3], [-2, 2]]),
              l ∉ cl) ∧
        has_empty_clause
            (propagate_var_values (find_pure_literals (formula 3 [[1, -2], [2, 3], [-2, 2]]))
              (formula 3 [[1, -2], [2, 3], [-2, 2]])) = false ∧
        ∀ fuel acc acc1,
          pure_loop fuel (formula 3 [[1, -2], [2, 3], [-2, 2]]) acc ≠
            LoopResult.failed acc1) :=
  ⟨by simp [no_empty_clause, formula], rfl,
    pure_round_only_deletes (formula 3 [[1, -2], [2, 3], [-2, 2]])
      (by simp [no_empty_clause, formula]) rfl⟩

end CNF
